import Mathlib

/-!
Dolt row store adapter (package sqle) and Noms struct values

A shallow embedding of

* `go/libraries/doltcore/sqle/rows.go`   (row iterator, row conversion),
* `go/libraries/doltcore/sqle/tables.go` (`DoltTable`: partitions, scan, `Insert`),

together with the parts of the value model they call (`types.Map`, `row.Row`,
`doltdb.Table`, `doltdb.RootValue`, `types.Struct`), which are not among the source
files and are modelled from the specification.

Go pointers with mutable fields (`*DoltTable`, `*Database`) become explicit state
passing; a Go `(value, error)` pair becomes `Except GoError value` for the callees and
an explicit pair for the functions of the source; Go maps become association lists.
Every fallible call into the value store may fail: whether it does is decided by a
fault oracle carried by the context (`Env`).
-/

set_option linter.dupNamespace false

namespace Dolt

/-! ## Errors and values -/

/-- Go `error` values produced or forwarded by the package. -/
inductive GoError where
  /-- The sentinel `io.EOF`. -/
  | EOF
  /-- The result of `errors.New(msg)`. -/
  | New (msg : String)
  /-- The result of `errhand.BuildDError(msg).AddCause(cause).Build()`. -/
  | DError (msg : String) (cause : GoError)
  deriving DecidableEq, Repr

/-- Noms scalar values (`types.Value`) that table rows carry; `null` is `types.NullValue`. -/
inductive Value where
  | null
  | bool (b : Bool)
  | int (n : Int)
  | str (s : String)
  deriving DecidableEq, Repr

/-- Values of the SQL engine (a non-nil Go `interface{}` in a `sql.Row`). -/
inductive SqlVal where
  | bool (b : Bool)
  | int (n : Int)
  | str (s : String)
  deriving DecidableEq, Repr

/-- A `sql.Row`: one entry per column, `none` for Go `nil`. -/
abbrev SqlRow := List (Option SqlVal)

/-- The serialization format tag `*types.NomsBinFormat` threaded through the value model. -/
structure NomsBinFormat where
  tag : String
  deriving DecidableEq, Repr

/-- The format used by the tests (`types.Format_7_18`). -/
def Format_7_18 : NomsBinFormat := ⟨"7.18"⟩

/-- `types.IsNull`: a Go `nil` value or the Noms null value. -/
def IsNull : Option Value → Bool
  | none => true
  | some .null => true
  | some _ => false

/-! ## Tuples and their canonical order -/

/-- A `types.Tuple` of a row map: the sequence of (tag, value) pairs. -/
structure Tuple where
  vals : List (Nat × Value)
  deriving DecidableEq, Repr

/-- Modelled from the spec: the canonical order of values ("deterministic ordering of keys by
their encoded representation"), as a position in a lexicographic order: first the kind,
then the content. -/
def Value.rank : Value → Nat ×ₗ Int ×ₗ List Nat
  | .null => toLex (0, toLex (0, []))
  | .bool b => toLex (1, toLex ((if b then 1 else 0), []))
  | .int n => toLex (2, toLex (n, []))
  | .str s => toLex (3, toLex (0, s.data.map Char.toNat))

/-- The canonical position of a tuple: its (tag, value) pairs, compared lexicographically. -/
def Tuple.rank (t : Tuple) : List (Nat ×ₗ Nat ×ₗ Int ×ₗ List Nat) :=
  t.vals.map fun p => toLex (p.1, p.2.rank)

/-- Modelled from the spec: `Tuple.Less`, the canonical key order of a row map. -/
def Tuple.Less (a b : Tuple) : Bool :=
  decide (a.rank < b.rank)

/-! ## Tagged values, schemas, rows -/

/-- The Go type `row.TaggedValues` (`map[uint64]types.Value`), with at most one entry per tag. -/
abbrev TaggedValues := List (Nat × Value)

/-- The lookup `tt[tag]` with its presence flag (`TaggedValues.Get`). -/
def TaggedValues.Get (tt : TaggedValues) (tag : Nat) : Option Value :=
  match tt with
  | [] => none
  | (t, v) :: rest => if t = tag then some v else TaggedValues.Get rest tag

/-- The copying update `TaggedValues.Set`: the receiver is not modified. -/
def TaggedValues.Set (tt : TaggedValues) (tag : Nat) (val : Value) : TaggedValues :=
  (tag, val) :: tt.filter fun p => p.1 ≠ tag

/-- The function `TaggedValues.NomsTupleForTags`: the values of `tags`, in the order of
`tags`; a tag without a value is encoded as null when `encodeNulls` is set and is left out
otherwise. -/
def TaggedValues.NomsTupleForTags (tt : TaggedValues) (tags : List Nat) (encodeNulls : Bool) :
    Tuple :=
  ⟨tags.filterMap fun tag =>
    match TaggedValues.Get tt tag with
    | some v => some (tag, v)
    | none => if encodeNulls then some (tag, Value.null) else none⟩

/-- The function `row.ParseTaggedValues`: the tag to value mapping of a tuple; null values are
not kept. -/
def ParseTaggedValues (t : Tuple) : TaggedValues :=
  t.vals.foldl (fun acc p => if p.2 = Value.null then acc else TaggedValues.Set acc p.1 p.2) []

/-- A column of a schema (`schema.Column`): name, tag and primary-key membership. -/
structure Column where
  Name : String
  Tag : Nat
  IsPartOfPK : Bool
  deriving DecidableEq, Repr

/-- An ordered collection of columns (`schema.ColCollection`). -/
structure ColCollection where
  cols : List Column
  deriving DecidableEq, Repr

/-- The field `ColCollection.Tags`: the tags of the columns, in column order. -/
def ColCollection.Tags (cc : ColCollection) : List Nat :=
  cc.cols.map Column.Tag

/-- The number of columns. -/
def ColCollection.Size (cc : ColCollection) : Nat :=
  cc.cols.length

/-- A table schema (`schema.Schema`): the columns in declaration order. -/
structure Schema where
  allCols : List Column
  deriving DecidableEq, Repr

/-- All columns, in schema order. -/
def Schema.GetAllCols (sch : Schema) : ColCollection :=
  ⟨sch.allCols⟩

/-- The primary-key columns, in schema order. -/
def Schema.GetPKCols (sch : Schema) : ColCollection :=
  ⟨sch.allCols.filter fun c => c.IsPartOfPK⟩

/-- The columns outside the primary key, in schema order. -/
def Schema.GetNonPKCols (sch : Schema) : ColCollection :=
  ⟨sch.allCols.filter fun c => !c.IsPartOfPK⟩

/-- A dolt row (`row.Row`, the implementation `nomsRow`): the primary-key values and the
other values, each by tag. -/
structure Row where
  key : TaggedValues
  value : TaggedValues
  deriving DecidableEq, Repr

/-- The method `Row.GetColVal`: the value of a tag, looked up among the key values first. -/
def Row.GetColVal (r : Row) (tag : Nat) : Option Value :=
  match TaggedValues.Get r.key tag with
  | some v => some v
  | none => TaggedValues.Get r.value tag

/-- The method `Row.NomsMapKey`: the key tuple of the row, nulls encoded. -/
def Row.NomsMapKey (r : Row) (sch : Schema) : Tuple :=
  TaggedValues.NomsTupleForTags r.key sch.GetPKCols.Tags true

/-- The method `Row.NomsMapValue`: the value tuple of the row, absent values left out. -/
def Row.NomsMapValue (r : Row) (sch : Schema) : Tuple :=
  TaggedValues.NomsTupleForTags r.value sch.GetNonPKCols.Tags false

/-! ## The row map, tables and the database root -/

/-- Modelled from the spec: `types.Map` as used for row data, "an immutable ordered map keyed
by encoded primary key": the entries in iteration order. -/
structure NomsMap where
  entries : List (Tuple × Tuple)
  deriving DecidableEq, Repr

/-- Modelled from the spec: the point lookup `Map.MaybeGet`. -/
def NomsMap.MaybeGet (m : NomsMap) (k : Tuple) : Option Tuple :=
  match m.entries.find? fun e => e.1 = k with
  | some e => some e.2
  | none => none

/-- The number of entries (`Map.Len`). -/
def NomsMap.Len (m : NomsMap) : Nat :=
  m.entries.length

/-- Binding `k` to `v` in a list of entries: an equal key is rebound in place, a new key is
placed before the first greater key. -/
def setEntry (k v : Tuple) : List (Tuple × Tuple) → List (Tuple × Tuple)
  | [] => [(k, v)]
  | e :: rest =>
    if k = e.1 then (k, v) :: rest
    else if k.Less e.1 then (k, v) :: e :: rest
    else e :: setEntry k v rest

/-- Modelled from the spec: a map with one binding added or replaced; "binds key to value
into a new map (the old map is untouched)". -/
def NomsMap.set (m : NomsMap) (k v : Tuple) : NomsMap :=
  ⟨setEntry k v m.entries⟩

/-- The entries of the map are in strictly ascending key order, the invariant of a row map. -/
def NomsMap.Ordered (m : NomsMap) : Prop :=
  m.entries.Pairwise fun a b => a.1.Less b.1 = true

/-- A `types.MapEditor`: a map and the edits accumulated on it, oldest first. -/
structure MapEditor where
  m : NomsMap
  edits : List (Tuple × Tuple)
  deriving DecidableEq, Repr

/-- The method `Map.Edit`: an editor without edits. -/
def NomsMap.Edit (m : NomsMap) : MapEditor :=
  ⟨m, []⟩

/-- The method `MapEditor.Set`: records one more binding. -/
def MapEditor.Set (me : MapEditor) (k v : Tuple) : MapEditor :=
  ⟨me.m, me.edits ++ [(k, v)]⟩

/-- A `types.MapIterator`: the map it walks and the position of the next entry. -/
structure MapIterator where
  m : NomsMap
  pos : Nat
  deriving DecidableEq, Repr

/-- An immutable table value (`doltdb.Table`): format, schema and row data. -/
structure Table where
  nbf : NomsBinFormat
  sch : Schema
  rowData : NomsMap
  deriving DecidableEq, Repr

/-- The method `Table.Format`. -/
def Table.Format (t : Table) : NomsBinFormat :=
  t.nbf

/-- Modelled from the spec: the database root (`doltdb.RootValue`), "an immutable mapping
from table name to Table". -/
structure RootValue where
  tables : List (String × Table)
  deriving DecidableEq, Repr

/-- The table bound to a name in a root, if any. -/
def RootValue.GetTable (r : RootValue) (name : String) : Option Table :=
  match r.tables.find? fun e => e.1 = name with
  | some e => some e.2
  | none => none

/-- Rebinding a name in the bindings of a root: in place when bound, at the end otherwise. -/
def putBinding (name : String) (tbl : Table) : List (String × Table) → List (String × Table)
  | [] => [(name, tbl)]
  | e :: rest => if e.1 = name then (name, tbl) :: rest else e :: putBinding name tbl rest

/-- The `sql.Database` implementation of the package: it holds the current root. -/
structure Database where
  root : RootValue
  deriving DecidableEq, Repr

/-- The state of a `*DoltTable`: name, current table value, schema, and the database whose
root it updates. -/
structure DoltTable where
  name : String
  table : Table
  sch : Schema
  db : Database
  deriving DecidableEq, Repr

/-! ## The collaborators outside the source files -/

/-- The context of a call (`*sql.Context` and the value store behind it): the value
conversions of the package that are not in the source files, and a fault oracle that decides,
for each fallible call into the row codec and the value store, whether it fails
(`some err`) or not (`none`). -/
structure Env where
  /-- The conversion `SqlValToNomsVal`. -/
  SqlValToNomsVal : SqlVal → Value
  /-- The conversion `nomsValToSqlVal`. -/
  nomsValToSqlVal : Value → SqlVal
  /-- Failure of `row.New` for a schema and tagged values. -/
  rowNewErr : Schema → TaggedValues → Option GoError
  /-- Failure of `row.FromNoms` for a schema, key tuple and value tuple. -/
  fromNomsErr : Schema → Tuple → Tuple → Option GoError
  /-- Failure of reading a value (`Value(ctx)`). -/
  valueErr : Value → Option GoError
  /-- Failure of the map lookup of `Table.GetRowByPKVals`. -/
  getRowErr : Table → Tuple → Option GoError
  /-- Failure of `Table.GetRowData`. -/
  getRowDataErr : Table → Option GoError
  /-- Failure of building the edited map (`MapEditor.Map`). -/
  mapErr : MapEditor → Option GoError
  /-- Failure of `Table.UpdateRows`. -/
  updateRowsErr : Table → NomsMap → Option GoError
  /-- Failure of `RootValue.PutTable`. -/
  putTableErr : RootValue → String → Table → Option GoError
  /-- Failure of `Map.Iterator`. -/
  iteratorErr : NomsMap → Option GoError
  /-- Failure of `MapIterator.Next` at a position. -/
  iterNextErr : NomsMap → Nat → Option GoError

/-- A context in which no call fails, with the given value conversions. -/
def Env.reliable (toNoms : SqlVal → Value) (toSql : Value → SqlVal) : Env where
  SqlValToNomsVal := toNoms
  nomsValToSqlVal := toSql
  rowNewErr := fun _ _ => none
  fromNomsErr := fun _ _ _ => none
  valueErr := fun _ => none
  getRowErr := fun _ _ => none
  getRowDataErr := fun _ => none
  mapErr := fun _ => none
  updateRowsErr := fun _ _ => none
  putTableErr := fun _ _ _ => none
  iteratorErr := fun _ => none
  iterNextErr := fun _ _ => none

/-- No call of the row codec or the value store fails in this context. -/
structure Env.NoFaults (ctx : Env) : Prop where
  rowNew : ∀ sch tv, ctx.rowNewErr sch tv = none
  fromNoms : ∀ sch k v, ctx.fromNomsErr sch k v = none
  value : ∀ v, ctx.valueErr v = none
  getRow : ∀ t k, ctx.getRowErr t k = none
  getRowData : ∀ t, ctx.getRowDataErr t = none
  map : ∀ me, ctx.mapErr me = none
  updateRows : ∀ t m, ctx.updateRowsErr t m = none
  putTable : ∀ r n t, ctx.putTableErr r n t = none
  iterator : ∀ m, ctx.iteratorErr m = none
  iterNext : ∀ m i, ctx.iterNextErr m i = none

/-- Modelled from the spec: `row.New`, which "splits columns into primary-key-tagged and
non-key-tagged groups per schema"; the tagged values it is given are kept. -/
def Row.New (ctx : Env) (_nbf : NomsBinFormat) (sch : Schema) (colVals : TaggedValues) :
    Except GoError Row :=
  match ctx.rowNewErr sch colVals with
  | some err => .error err
  | none =>
    .ok ⟨colVals.filter (fun p => p.1 ∈ sch.GetPKCols.Tags),
         colVals.filter (fun p => p.1 ∉ sch.GetPKCols.Tags)⟩

/-- Modelled from the spec: `row.FromNoms`, the inverse of the encoding: it "reconstructs the
tag to scalar mapping" from a key tuple and a value tuple. -/
def Row.FromNoms (ctx : Env) (sch : Schema) (key val : Tuple) : Except GoError Row :=
  match ctx.fromNomsErr sch key val with
  | some err => .error err
  | none => .ok ⟨ParseTaggedValues key, ParseTaggedValues val⟩

/-- Reading a value through the store (`Valuable.Value(ctx)`): the value itself. -/
def Value.Value (v : Value) (ctx : Env) : Except GoError Value :=
  match ctx.valueErr v with
  | some err => .error err
  | none => .ok v

/-- The method `Table.GetRowData`: the row map of the table. -/
def Table.GetRowData (t : Table) (ctx : Env) : Except GoError NomsMap :=
  match ctx.getRowDataErr t with
  | some err => .error err
  | none => .ok t.rowData

/-- Modelled from the spec: `Table.GetRowByPKVals`, which "encodes pkValues via the Row
Codec's key-tuple encoding, looks up the current rowData map by that key". -/
def Table.GetRowByPKVals (t : Table) (ctx : Env) (pkVals : TaggedValues) (sch : Schema) :
    Except GoError (Option Row × Bool) :=
  let pkTuple := TaggedValues.NomsTupleForTags pkVals sch.GetPKCols.Tags true
  match ctx.getRowErr t pkTuple with
  | some err => .error err
  | none =>
    match t.rowData.MaybeGet pkTuple with
    | none => .ok (none, false)
    | some fieldsVal =>
      match Row.FromNoms ctx sch pkTuple fieldsVal with
      | .error err => .error err
      | .ok r => .ok (some r, true)

/-- The method `MapEditor.Map`: the map with the recorded edits applied in order. -/
def MapEditor.Map (me : MapEditor) (ctx : Env) : Except GoError NomsMap :=
  match ctx.mapErr me with
  | some err => .error err
  | none => .ok (me.edits.foldl (fun m e => m.set e.1 e.2) me.m)

/-- Modelled from the spec: `Table.UpdateRows`, "wraps it into a new Table": the same table
with the given row data. -/
def Table.UpdateRows (t : Table) (ctx : Env) (updated : NomsMap) : Except GoError Table :=
  match ctx.updateRowsErr t updated with
  | some err => .error err
  | none => .ok { t with rowData := updated }

/-- Modelled from the spec: `RootValue.PutTable`, a new root "replacing only this table's
binding; all other table bindings are shared unchanged with the previous root". -/
def RootValue.PutTable (r : RootValue) (ctx : Env) (name : String) (tbl : Table) :
    Except GoError RootValue :=
  match ctx.putTableErr r name tbl with
  | some err => .error err
  | none => .ok ⟨putBinding name tbl r.tables⟩

/-- Modelled from the spec: `Map.Iterator`, an iterator "walking the map's iterator from the
first key". -/
def NomsMap.Iterator (m : NomsMap) (ctx : Env) : Except GoError MapIterator :=
  match ctx.iteratorErr m with
  | some err => .error err
  | none => .ok ⟨m, 0⟩

/-- Modelled from the spec: `MapIterator.Next`, the next entry in key order; `none` (Go: a
nil key and a nil value) once the map is exhausted. -/
def MapIterator.Next (it : MapIterator) (ctx : Env) :
    Except GoError (Option (Tuple × Tuple)) × MapIterator :=
  match ctx.iterNextErr it.m it.pos with
  | some err => (.error err, it)
  | none =>
    match it.m.entries.get? it.pos with
    | none => (.ok none, it)
    | some e => (.ok (some e), { it with pos := it.pos + 1 })

/-! ## rows.go -/

/-- The state of a `*doltTableRowIter`. The Go field `table` is a pointer to the `DoltTable`;
the functions below take the current state of that `DoltTable` as an argument. -/
structure doltTableRowIter where
  rowData : NomsMap
  nomsIter : MapIterator
  deriving DecidableEq, Repr

/-- The function `newRowIterator` of rows.go. -/
def newRowIterator (tbl : DoltTable) (ctx : Env) : Except GoError doltTableRowIter :=
  match tbl.table.GetRowData ctx with
  | .error err => .error err
  | .ok rowData =>
    match rowData.Iterator ctx with
    | .error err => .error err
    | .ok mapIter => .ok { rowData := rowData, nomsIter := mapIter }

/-- The function `doltColValToSqlColVal` of rows.go. -/
def doltColValToSqlColVal (ctx : Env) (val : Option Value) : Option SqlVal :=
  match val with
  | none => none
  | some v => if IsNull (some v) then none else some (ctx.nomsValToSqlVal v)

/-- The function `doltRowToSqlRow` of rows.go: one entry per schema column, in schema
order. The callback never fails, so neither does the function. -/
def doltRowToSqlRow (ctx : Env) (doltRow : Row) (sch : Schema) : Except GoError SqlRow :=
  .ok (sch.GetAllCols.Tags.map fun tag => doltColValToSqlColVal ctx (doltRow.GetColVal tag))

/-- The loop of `SqlRowToDoltRow`: the entry at index `i` is filed under the tag `i`; nil
entries are skipped. -/
def SqlRowToDoltRow.loop (ctx : Env) : Nat → SqlRow → TaggedValues → TaggedValues
  | _, [], taggedVals => taggedVals
  | i, none :: rest, taggedVals => SqlRowToDoltRow.loop ctx (i + 1) rest taggedVals
  | i, some val :: rest, taggedVals =>
    SqlRowToDoltRow.loop ctx (i + 1) rest (TaggedValues.Set taggedVals i (ctx.SqlValToNomsVal val))

/-- The function `SqlRowToDoltRow` of rows.go. -/
def SqlRowToDoltRow (ctx : Env) (nbf : NomsBinFormat) (r : SqlRow) (doltSchema : Schema) :
    Except GoError Row :=
  Row.New ctx nbf doltSchema (SqlRowToDoltRow.loop ctx 0 r [])

/-- The method `doltTableRowIter.Next` of rows.go, on the current state `tbl` of the table
the iterator points to: the pair (row, error) and the iterator afterwards. -/
def doltTableRowIter.Next (itr : doltTableRowIter) (tbl : DoltTable) (ctx : Env) :
    (Option SqlRow × Option GoError) × doltTableRowIter :=
  match itr.nomsIter.Next ctx with
  | (.error err, it) => ((none, some err), { itr with nomsIter := it })
  | (.ok none, it) => ((none, some GoError.EOF), { itr with nomsIter := it })
  | (.ok (some (key, val)), it) =>
    match Row.FromNoms ctx tbl.sch key val with
    | .error err => ((none, some err), { itr with nomsIter := it })
    | .ok doltRow =>
      match doltRowToSqlRow ctx doltRow tbl.sch with
      | .error err => ((none, some err), { itr with nomsIter := it })
      | .ok r => ((some r, none), { itr with nomsIter := it })

/-- The method `doltTableRowIter.Close`. -/
def doltTableRowIter.Close (_itr : doltTableRowIter) : Option GoError :=
  none

/-- The results of calling `Next` once for each element of `tbls`, in order; the i-th call
sees the i-th element as the current state of the table the iterator points to. -/
def doltTableRowIter.NextN (itr : doltTableRowIter) (ctx : Env) :
    List DoltTable → List (Option SqlRow × Option GoError)
  | [] => []
  | tbl :: rest => (itr.Next tbl ctx).1 :: doltTableRowIter.NextN (itr.Next tbl ctx).2 ctx rest

/-! ## tables.go -/

/-- The state of a `*doltTablePartitionIter`: the counter `i`. -/
structure doltTablePartitionIter where
  i : Int
  deriving DecidableEq, Repr

/-- The single partition of a table (`doltTablePartition`); it has no fields. -/
structure doltTablePartition where
  deriving DecidableEq, Repr

/-- The constant `partitionName`. -/
def partitionName : String := "single"

/-- The method `doltTablePartition.Key`: the partition name (as bytes in Go). -/
def doltTablePartition.Key (_p : doltTablePartition) : String :=
  partitionName

/-- The method `DoltTable.Name`. -/
def DoltTable.Name (t : DoltTable) : String :=
  t.name

/-- The method `DoltTable.Partitions`: a fresh partition iterator and no error. -/
def DoltTable.Partitions (_t : DoltTable) (_ctx : Env) : Except GoError doltTablePartitionIter :=
  .ok { i := 0 }

/-- The method `doltTablePartitionIter.Next`: the pair (partition, error) and the iterator
afterwards. -/
def doltTablePartitionIter.Next (itr : doltTablePartitionIter) :
    (Option doltTablePartition × Option GoError) × doltTablePartitionIter :=
  if itr.i > 0 then ((none, some GoError.EOF), itr)
  else ((some {}, none), { i := itr.i + 1 })

/-- The method `doltTablePartitionIter.Close`. -/
def doltTablePartitionIter.Close (_itr : doltTablePartitionIter) : Option GoError :=
  none

/-- The results of `n` successive calls of `Next` on a partition iterator. -/
def doltTablePartitionIter.NextN (itr : doltTablePartitionIter) :
    Nat → List (Option doltTablePartition × Option GoError)
  | 0 => []
  | n + 1 => itr.Next.1 :: doltTablePartitionIter.NextN itr.Next.2 n

/-- The method `DoltTable.PartitionRows`. -/
def DoltTable.PartitionRows (t : DoltTable) (ctx : Env) (_part : doltTablePartition) :
    Except GoError doltTableRowIter :=
  newRowIterator t ctx

/-- The loop of `Insert` over the primary-key tags: collects the primary-key values of the
row, failing at the first tag without a value or with an unreadable value. -/
def DoltTable.Insert.pkLoop (ctx : Env) (dRow : Row) :
    List Nat → TaggedValues → Except GoError TaggedValues
  | [], taggedVals => .ok taggedVals
  | pkTag :: rest, taggedVals =>
    match dRow.GetColVal pkTag with
    | none => .error (GoError.New "error: primary key missing from values")
    | some dCol =>
      match dCol.Value ctx with
      | .error err => .error (GoError.DError "error: failed to read primary key value" err)
      | .ok dColVal => DoltTable.Insert.pkLoop ctx dRow rest (TaggedValues.Set taggedVals pkTag dColVal)

/-- The method `DoltTable.Insert` of tables.go: the pair (inserted, error) it returns and the
state of the `DoltTable` (fields `table` and `db.root`) afterwards. -/
def DoltTable.Insert (t : DoltTable) (ctx : Env) (sqlRow : SqlRow) :
    (Bool × Option GoError) × DoltTable :=
  match SqlRowToDoltRow ctx t.table.Format sqlRow t.sch with
  | .error err => ((false, some err), t)
  | .ok dRow =>
    match DoltTable.Insert.pkLoop ctx dRow t.sch.GetPKCols.Tags [] with
    | .error err => ((false, some err), t)
    | .ok taggedVals =>
      match t.table.GetRowByPKVals ctx taggedVals t.sch with
      | .error err => ((false, some (GoError.DError "error: failed to read table" err)), t)
      | .ok (_, true) => ((false, none), t)
      | .ok (_, false) =>
        match t.table.GetRowData ctx with
        | .error err => ((false, some (GoError.DError "error: failed to get row data." err)), t)
        | .ok typesMap =>
          match ((typesMap.Edit).Set (dRow.NomsMapKey t.sch) (dRow.NomsMapValue t.sch)).Map ctx with
          | .error err => ((false, some (GoError.DError "error: failed to modify table" err)), t)
          | .ok updated =>
            match t.table.UpdateRows ctx updated with
            | .error err => ((false, some (GoError.DError "error: failed to update rows" err)), t)
            | .ok newTable =>
              match t.db.root.PutTable ctx t.name newTable with
              | .error err =>
                ((false, some (GoError.DError "error: failed to write table back to database" err)), t)
              | .ok newRoot =>
                ((true, none), { t with table := newTable, db := { root := newRoot } })

/-! ## Example data

A small instance of the `people` table of the insert tests (columns `id`, `first`, `last`,
with `id` the primary key), and a context in which nothing fails. -/

/-- A value conversion for the examples: each SQL value becomes the Noms value of its kind. -/
def exampleToNoms : SqlVal → Value
  | .bool b => .bool b
  | .int n => .int n
  | .str s => .str s

/-- A value conversion for the examples, inverse to `exampleToNoms` on non-null values. -/
def exampleToSql : Value → SqlVal
  | .bool b => .bool b
  | .int n => .int n
  | .str s => .str s
  | .null => .int 0

/-- A context in which no call fails. -/
def exampleCtx : Env :=
  Env.reliable exampleToNoms exampleToSql

/-- The schema of the example table; tags are the column positions. -/
def peopleSch : Schema :=
  ⟨[⟨"id", 0, true⟩, ⟨"first", 1, false⟩, ⟨"last", 2, false⟩]⟩

/-- A second table of the example root, with one row. -/
def episodesTable : Table :=
  ⟨Format_7_18, ⟨[⟨"id", 0, true⟩, ⟨"name", 1, false⟩]⟩,
   ⟨[(⟨[(0, .int 1)]⟩, ⟨[(1, .str "Simpsons Roasting on an Open Fire")]⟩)]⟩⟩

/-- The empty example table, bound to its name in a root that also holds `episodes`. -/
def peopleEmpty : DoltTable :=
  ⟨"people", ⟨Format_7_18, peopleSch, ⟨[]⟩⟩, peopleSch,
   ⟨⟨[("episodes", episodesTable), ("people", ⟨Format_7_18, peopleSch, ⟨[]⟩⟩)]⟩⟩⟩

/-- The row `(2, 'Bart', 'Simpson')` of the insert tests. -/
def bartRow : SqlRow :=
  [some (.int 2), some (.str "Bart"), some (.str "Simpson")]

/-- The row `(1, 'Homer', 'Simpson')` of the insert tests. -/
def homerRow : SqlRow :=
  [some (.int 1), some (.str "Homer"), some (.str "Simpson")]

/-- The example table after inserting `bartRow`. -/
def peopleWithBart : DoltTable :=
  (peopleEmpty.Insert exampleCtx bartRow).2

/-- The dolt row of `bartRow`. -/
def bartDoltRow : Row :=
  ⟨[(0, .int 2)], [(2, .str "Simpson"), (1, .str "Bart")]⟩

/-- A schema whose tags are not the column positions: the primary-key column `id` comes
first and has tag 1, the column `x` comes second and has tag 0. -/
def swappedSch : Schema :=
  ⟨[⟨"id", 1, true⟩, ⟨"x", 0, false⟩]⟩

/-- A table with the schema `swappedSch` that holds one row, with `id = 1` and `x = 9`. -/
def swappedWithOne : DoltTable :=
  ⟨"t", ⟨Format_7_18, swappedSch, ⟨[(⟨[(1, .int 1)]⟩, ⟨[(0, .int 9)]⟩)]⟩⟩, swappedSch,
   ⟨⟨[("t", ⟨Format_7_18, swappedSch, ⟨[(⟨[(1, .int 1)]⟩, ⟨[(0, .int 9)]⟩)]⟩⟩)]⟩⟩⟩

/-- An empty table with the schema `swappedSch`. -/
def swappedEmpty : DoltTable :=
  ⟨"t", ⟨Format_7_18, swappedSch, ⟨[]⟩⟩, swappedSch,
   ⟨⟨[("t", ⟨Format_7_18, swappedSch, ⟨[]⟩⟩)]⟩⟩⟩

/-! ## Structs (package types)

`types.Struct` is not among the source files (only its tests are); the definitions of this
section are modelled from the specification. -/

/-- Errors of the struct operations named by the spec. -/
inductive StructError where
  /-- An absent (nil) value bound to the named field. -/
  | InvalidFieldError (field : String)
  /-- A malformed field name. -/
  | InvalidNameError (name : String)
  deriving DecidableEq, Repr

/-- An ASCII letter. -/
def isFieldNameStart (c : Char) : Bool :=
  (65 ≤ c.toNat && c.toNat ≤ 90) || (97 ≤ c.toNat && c.toNat ≤ 122)

/-- An ASCII letter, digit or underscore. -/
def isFieldNameRest (c : Char) : Bool :=
  isFieldNameStart c || (48 ≤ c.toNat && c.toNat ≤ 57) || c.toNat = 95

/-- Modelled from the spec: "field names must match `[A-Za-z][A-Za-z0-9_]*`". -/
def IsValidFieldName (n : String) : Bool :=
  match n.data with
  | [] => false
  | c :: cs => isFieldNameStart c && cs.all isFieldNameRest

/-- Modelled from the spec: the canonical order of field names, "ordered lexicographically
by canonical encoding"; for valid (ASCII) names the code points are the encoded bytes. -/
def fieldLess (a b : String) : Bool :=
  decide (a.data.map Char.toNat < b.data.map Char.toNat)

/-- Modelled from the spec: a struct value, "name: a type-tag string" and "fields: ordered
sequence of (fieldName, Value) pairs". Two structs are equal (`Equals`) when name and fields
are equal. -/
structure Struct where
  name : String
  fields : List (String × Value)
  deriving DecidableEq, Repr

/-- The argument of the struct constructor (`types.StructData`, a Go map from field name to
value): bindings with distinct names; `none` is a nil value. Where a list has more than one
entry for a name, the first is the binding. -/
abbrev StructData := List (String × Option Value)

/-- The binding of a name in struct data. -/
def StructData.get (data : StructData) (n : String) : Option (Option Value) :=
  match data.find? fun p => p.1 = n with
  | some p => some p.2
  | none => none

/-- Struct data with `n` bound to `v`, and the other bindings kept. -/
def StructData.set (data : StructData) (n : String) (v : Option Value) : StructData :=
  (n, v) :: data.filter fun p => p.1 ≠ n

/-- Inserting a name into a list of names in canonical order, once. -/
def insertName (n : String) : List String → List String
  | [] => [n]
  | m :: rest =>
    if n = m then m :: rest
    else if fieldLess n m then n :: m :: rest
    else m :: insertName n rest

/-- The names of a list in canonical order, each once. -/
def sortNames (names : List String) : List String :=
  names.foldr insertName []

/-- Modelled from the spec: `NewStruct(formatVersion, name, fields)`, which "fails with
InvalidFieldError if any value is absent/unbound", fails with InvalidNameError if a field name
is malformed, and binds the fields "ordered lexicographically by canonical encoding (not
insertion order)". -/
def NewStruct (_nbf : NomsBinFormat) (name : String) (data : StructData) :
    Except StructError Struct :=
  match data.find? fun p => p.2.isNone with
  | some p => .error (.InvalidFieldError p.1)
  | none =>
    match data.find? fun p => !IsValidFieldName p.1 with
    | some p => .error (.InvalidNameError p.1)
    | none =>
      .ok ⟨name, (sortNames (data.map Prod.fst)).filterMap fun n =>
        match StructData.get data n with
        | some (some v) => some (n, v)
        | _ => none⟩

/-- The fields of a struct as struct data. -/
def Struct.toData (s : Struct) : StructData :=
  s.fields.map fun p => (p.1, some p.2)

/-- Modelled from the spec: `get(fieldName)`, the value and the found flag; it never fails. -/
def Struct.MaybeGet (s : Struct) (n : String) : Option Value :=
  match s.fields.find? fun p => p.1 = n with
  | some p => some p.2
  | none => none

/-- Binding a field in an ordered field list: an existing field is rebound in place, a new
field is placed before the first greater name. -/
def setField (n : String) (v : Value) : List (String × Value) → List (String × Value)
  | [] => [(n, v)]
  | e :: rest =>
    if n = e.1 then (n, v) :: rest
    else if fieldLess n e.1 then (n, v) :: e :: rest
    else e :: setField n v rest

/-- Modelled from the spec: `set(fieldName, Value)`, copy-on-write: it "returns a new
Struct; the receiver is never mutated" and "fails with InvalidFieldError if value is
absent/unbound"; field names are restricted as in the constructor. -/
def Struct.Set (s : Struct) (n : String) (v : Option Value) : Except StructError Struct :=
  match v with
  | none => .error (.InvalidFieldError n)
  | some val =>
    if IsValidFieldName n then .ok ⟨s.name, setField n val s.fields⟩
    else .error (.InvalidNameError n)

/-- The invariant of a struct value: field names are valid and strictly ascending in the
canonical order (hence unique). -/
def Struct.WF (s : Struct) : Prop :=
  s.fields.Pairwise (fun a b => fieldLess a.1 b.1 = true) ∧
  ∀ p ∈ s.fields, IsValidFieldName p.1 = true

/-- Struct data without a binding for `n`, and the other bindings kept. -/
def StructData.remove (data : StructData) (n : String) : StructData :=
  data.filter fun p => p.1 ≠ n

/-- Removing a field from an ordered field list: the search ends at the field, which is
left out, or at the first greater name, where nothing is removed. -/
def removeField (n : String) : List (String × Value) → List (String × Value)
  | [] => []
  | e :: rest =>
    if n = e.1 then rest
    else if fieldLess n e.1 then e :: rest
    else e :: removeField n rest

/-- Modelled from the spec: `delete(fieldName)`, copy-on-write; "delete of an absent field
is a no-op returning an equal struct"; the spec names no failure for it. -/
def Struct.Delete (s : Struct) (n : String) : Except StructError Struct :=
  .ok ⟨s.name, removeField n s.fields⟩

/-- Deleting the fields named in a list, one after the other. -/
def Struct.DeleteAll (s : Struct) : List String → Except StructError Struct
  | [] => .ok s
  | n :: rest =>
    match s.Delete n with
    | .error err => .error err
    | .ok s2 => Struct.DeleteAll s2 rest

/-- The kind of a change (`types.DiffChangeType`). -/
inductive DiffChangeType where
  | DiffChangeAdded
  | DiffChangeRemoved
  | DiffChangeModified
  deriving DecidableEq, Repr

/-- A change record (`types.ValueChanged`): kind, key (the field name), old and new value;
`none` is a nil value. -/
structure ValueChanged where
  ChangeType : DiffChangeType
  Key : String
  OldValue : Option Value
  NewValue : Option Value
  deriving DecidableEq, Repr

/-- The change for a field present only in the receiver: "{Added, key, nil, b[key]}". -/
def addedOf (c : String × Value) : ValueChanged :=
  ⟨.DiffChangeAdded, c.1, none, some c.2⟩

/-- The change for a field present only in the argument: "{Removed, key, a[key], nil}". -/
def removedOf (l : String × Value) : ValueChanged :=
  ⟨.DiffChangeRemoved, l.1, some l.2, none⟩

/-- The change for a field of both with different values:
"{Modified, key, a[key], b[key]}". -/
def modifiedOf (l c : String × Value) : ValueChanged :=
  ⟨.DiffChangeModified, c.1, some l.2, some c.2⟩

/-- One step of the field-by-field walk: the field `c` of the receiver against the remaining
fields of the argument; `k` continues the walk with the fields of the receiver after `c`. -/
def diffOne (c : String × Value) (k : List (String × Value) → List ValueChanged) :
    List (String × Value) → List ValueChanged
  | [] => addedOf c :: k []
  | l :: ls =>
    if c.1 = l.1 then
      if c.2 = l.2 then k ls else modifiedOf l c :: k ls
    else if fieldLess c.1 l.1 then addedOf c :: k (l :: ls)
    else removedOf l :: diffOne c k ls

/-- The field-by-field walk over the ordered fields of the receiver (first argument) and of
the argument (second argument), emitting the changes in key order. -/
def diffFields : List (String × Value) → List (String × Value) → List ValueChanged
  | [] => fun ls => ls.map removedOf
  | c :: cs => fun ls => diffOne c (diffFields cs) ls

/-- Modelled from the spec: `diff(a, b)` for structs, the sequence of changes that
`cur.Diff(last, changes, closeChan)` sends on the channel, with `a = last` (the argument) and
`b = cur` (the receiver). It "operates field-by-field" and emits the changes "in the
canonical key order of the union of both keysets"; the struct names are not compared. The
channel and its cancellation are not modelled. -/
def Struct.Diff (cur last : Struct) : List ValueChanged :=
  diffFields cur.fields last.fields

/-- The changes between the fields `cs` of the receiver and the fields `ls` of the argument:
`vc` is the Added record of a field only in `cs`, the Removed record of a field only in `ls`,
or the Modified record of a field in both with different values. -/
def IsChange (cs ls : List (String × Value)) (vc : ValueChanged) : Prop :=
  (∃ c ∈ cs, (∀ l ∈ ls, l.1 ≠ c.1) ∧ vc = addedOf c) ∨
  (∃ l ∈ ls, (∀ c ∈ cs, c.1 ≠ l.1) ∧ vc = removedOf l) ∨
  (∃ c ∈ cs, ∃ l ∈ ls, c.1 = l.1 ∧ c.2 ≠ l.2 ∧ vc = modifiedOf l c)

/-! ### Field-name escaping -/

/-- The uppercase hexadecimal digit of a number below 16. -/
def hexDigit (d : Nat) : Char :=
  if d < 10 then Char.ofNat (48 + d) else Char.ofNat (55 + d)

/-- The uppercase hexadecimal code of a sequence of bytes, two digits per byte. -/
def hexBytes : List Nat → List Char
  | [] => []
  | b :: bs => hexDigit (b / 16) :: hexDigit (b % 16) :: hexBytes bs

/-- The encoded bytes (UTF-8) of a character with code point `c`. -/
def utf8Bytes (c : Nat) : List Nat :=
  if c < 128 then [c]
  else if c < 2048 then [192 + c / 64, 128 + c % 64]
  else if c < 65536 then [224 + c / 4096, 128 + c / 64 % 64, 128 + c % 64]
  else [240 + c / 262144, 128 + c / 4096 % 64, 128 + c / 64 % 64, 128 + c % 64]

/-- The escape of one character: `Q` followed by the uppercase hex code of its encoded
bytes. -/
def escapeHex (c : Char) : List Char :=
  'Q' :: hexBytes (utf8Bytes c.toNat)

/-- One character of the escaped name: the character itself when it is allowed at its
position and is not the escape character `Q`, its escape otherwise. -/
def escapeRune (allowed : Char → Bool) (c : Char) : List Char :=
  if allowed c && c != 'Q' then [c] else escapeHex c

/-- The escaped characters after the first one. -/
def escapeTail : List Char → List Char
  | [] => []
  | c :: cs => escapeRune isFieldNameRest c ++ escapeTail cs

/-- Modelled from the spec: `EscapeStructField`, the "reversible escape transform" of
logical field names: a character outside the field-name pattern `[A-Za-z][A-Za-z0-9_]*` at
its position "is replaced by `Q` followed by its uppercase-hex code", `Q` itself is escaped
to `Q51`, and a multi-byte character is escaped as one `Q` followed by the hex code of all
its bytes (`"💩"` gives `"QF09F92A9"`). -/
def EscapeStructField (input : String) : String :=
  match input.data with
  | [] => ⟨[]⟩
  | c :: cs => ⟨escapeRune isFieldNameStart c ++ escapeTail cs⟩

/-- The value of a hexadecimal digit. -/
def hexVal (c : Char) : Nat :=
  if c.toNat ≤ 57 then c.toNat - 48 else c.toNat - 55

/-- Reads the two hex digits of one byte. -/
def readByte : List Char → Option (Nat × List Char)
  | h1 :: h2 :: rest => some (hexVal h1 * 16 + hexVal h2, rest)
  | _ => none

/-- Reads the escape of one character after its `Q`: the first byte tells how many bytes
the character has. -/
def decodeRune (l : List Char) : Option (Char × List Char) :=
  match readByte l with
  | none => none
  | some (b0, r0) =>
    if b0 < 128 then some (Char.ofNat b0, r0)
    else
      match readByte r0 with
      | none => none
      | some (b1, r1) =>
        if b0 < 224 then some (Char.ofNat ((b0 - 192) * 64 + (b1 - 128)), r1)
        else
          match readByte r1 with
          | none => none
          | some (b2, r2) =>
            if b0 < 240 then
              some (Char.ofNat ((b0 - 224) * 4096 + (b1 - 128) * 64 + (b2 - 128)), r2)
            else
              match readByte r2 with
              | none => none
              | some (b3, r3) =>
                some (Char.ofNat ((b0 - 240) * 262144 + (b1 - 128) * 4096 +
                  (b2 - 128) * 64 + (b3 - 128)), r3)

/-- Reads one character of an escaped name: a literal character, or an escape. -/
def unescapeOne : List Char → Option (Char × List Char)
  | [] => none
  | c :: rest => if c = 'Q' then decodeRune rest else some (c, rest)

/-- Reads at most `fuel` characters of an escaped name. -/
def unescapeFuel : Nat → List Char → List Char
  | 0, _ => []
  | fuel + 1, l =>
    match unescapeOne l with
    | none => []
    | some (c, rest) => c :: unescapeFuel fuel rest

/-- Modelled from the spec: the inverse of the escape ("its inverse uniquely recoverable for
every input"). Every character read consumes at least one character of the escaped name, so
its length is enough fuel. -/
def UnescapeStructField (escaped : String) : String :=
  ⟨unescapeFuel escaped.data.length escaped.data⟩

/-- The struct `S3 {b: true, o: "hi"}` of `TestGenericStructSet`. -/
def structS3 : Struct :=
  ⟨"S3", [("b", .bool true), ("o", .str "hi")]⟩

/-- The struct `S {a: true, c: true}` of `TestGenericStructSet`. -/
def structS8 : Struct :=
  ⟨"S", [("a", .bool true), ("c", .bool true)]⟩

/-- The struct `{a: true, b: "hi", c: 4}` of `TestStructDiff`. -/
def structDiff1 : Struct :=
  ⟨"", [("a", .bool true), ("b", .str "hi"), ("c", .int 4)]⟩

/-- The struct `{a: false, b: "bye", c: 4}` of `TestStructDiff`. -/
def structDiff2 : Struct :=
  ⟨"", [("a", .bool false), ("b", .str "bye"), ("c", .int 4)]⟩

/-- The struct `NewType {a: true, c: 4, d: 5}` of `TestStructDiff`. -/
def structDiff3 : Struct :=
  ⟨"NewType", [("a", .bool true), ("c", .int 4), ("d", .int 5)]⟩

/-- The struct `S {b: true, o: "hi"}` of `TestGenericStructDelete`. -/
def structS1 : Struct :=
  ⟨"S", [("b", .bool true), ("o", .str "hi")]⟩

/-! ## Properties -/

/-! ### Tagged values -/

theorem TaggedValues.Get_filter (q : Nat → Bool) (tt : TaggedValues) (tag : Nat) :
    TaggedValues.Get (tt.filter fun p => q p.1) tag =
      if q tag then TaggedValues.Get tt tag else none := by
  induction tt with
  | nil => simp [TaggedValues.Get]
  | cons p rest ih =>
    obtain ⟨t, v⟩ := p
    by_cases hq : q t = true
    · by_cases ht : t = tag
      · subst ht; simp [List.filter, hq, TaggedValues.Get]
      · simp [List.filter, hq, TaggedValues.Get, ht, ih]
    · by_cases ht : t = tag
      · subst ht; simp [List.filter, hq, TaggedValues.Get, ih]
      · simp [List.filter, hq, TaggedValues.Get, ht, ih]

theorem TaggedValues.Get_Set (tt : TaggedValues) (tag tag2 : Nat) (v : Value) :
    TaggedValues.Get (TaggedValues.Set tt tag v) tag2 =
      if tag = tag2 then some v else TaggedValues.Get tt tag2 := by
  unfold TaggedValues.Set
  by_cases h : tag = tag2
  · simp [TaggedValues.Get, h]
  · have := TaggedValues.Get_filter (fun x => decide (x ≠ tag)) tt tag2
    simp only [TaggedValues.Get, h, if_false]
    simp only [decide_not] at this
    simp [this, Ne.symm h]

theorem NomsTupleForTags_congr (a b : TaggedValues) (tags : List Nat) (e : Bool)
    (h : ∀ tag ∈ tags, TaggedValues.Get a tag = TaggedValues.Get b tag) :
    TaggedValues.NomsTupleForTags a tags e = TaggedValues.NomsTupleForTags b tags e := by
  unfold TaggedValues.NomsTupleForTags
  congr 1
  apply List.filterMap_congr
  intro x hx
  rw [h x hx]

/-! ### The canonical key order is a strict total order -/

theorem Value.rank_inj : Function.Injective Value.rank := by
  intro a b h
  cases a <;> cases b <;> simp [Value.rank, Prod.ext_iff] at h <;> first | rfl | skip
  · rename_i x y
    cases x <;> cases y <;> simp at h <;> rfl
  · rw [h]
  · rename_i x y
    have h2 : x.data = y.data := by
      apply List.map_injective_iff.mpr _ h
      intro c d hcd
      exact Char.ext (UInt32.ext (by simpa [Char.toNat] using hcd))
    rw [String.ext h2]

theorem Tuple.rank_inj_tuple : Function.Injective Tuple.rank := by
  intro a b h
  have hinj : Function.Injective
      (fun p : Nat × Value => (toLex (p.1, p.2.rank) : Nat ×ₗ Nat ×ₗ Int ×ₗ List Nat)) := by
    intro p q hpq
    simp only [EmbeddingLike.apply_eq_iff_eq, Prod.mk.injEq] at hpq
    exact Prod.ext hpq.1 (Value.rank_inj hpq.2)
  have := List.map_injective_iff.mpr hinj h
  cases a; cases b; simp_all

theorem Tuple.Less_irrefl (a : Tuple) : a.Less a = false := by
  simp [Tuple.Less]

theorem Tuple.Less_trans {a b c : Tuple} (h1 : a.Less b = true) (h2 : b.Less c = true) :
    a.Less c = true := by
  simp only [Tuple.Less, decide_eq_true_eq] at *
  exact lt_trans h1 h2

theorem Tuple.Less_total {a b : Tuple} (h1 : a.Less b = false) (h2 : a ≠ b) :
    b.Less a = true := by
  simp only [Tuple.Less, decide_eq_true_eq, decide_eq_false_iff_not, not_lt] at *
  exact lt_of_le_of_ne h1 (fun h => h2 (Tuple.rank_inj_tuple h.symm))

/-! ### The row map -/

theorem setEntry_cons_eq (k v : Tuple) (e : Tuple × Tuple) (rest : List (Tuple × Tuple))
    (h : k = e.1) : setEntry k v (e :: rest) = (k, v) :: rest := by
  simp [setEntry, h]

theorem setEntry_cons_lt (k v : Tuple) (e : Tuple × Tuple) (rest : List (Tuple × Tuple))
    (h : k ≠ e.1) (hlt : k.Less e.1 = true) :
    setEntry k v (e :: rest) = (k, v) :: e :: rest := by
  simp [setEntry, h, hlt]

theorem setEntry_cons_gt (k v : Tuple) (e : Tuple × Tuple) (rest : List (Tuple × Tuple))
    (h : k ≠ e.1) (hlt : k.Less e.1 = false) :
    setEntry k v (e :: rest) = e :: setEntry k v rest := by
  simp [setEntry, h, hlt]

theorem MaybeGet_cons (e : Tuple × Tuple) (rest : List (Tuple × Tuple)) (k : Tuple) :
    NomsMap.MaybeGet ⟨e :: rest⟩ k = if e.1 = k then some e.2 else NomsMap.MaybeGet ⟨rest⟩ k := by
  by_cases h : e.1 = k <;> simp [NomsMap.MaybeGet, List.find?_cons, h]

theorem MaybeGet_setEntry_self (k v : Tuple) (l : List (Tuple × Tuple)) :
    NomsMap.MaybeGet ⟨setEntry k v l⟩ k = some v := by
  induction l with
  | nil => simp [setEntry, NomsMap.MaybeGet]
  | cons e rest ih =>
    by_cases h1 : k = e.1
    · rw [setEntry_cons_eq k v e rest h1, MaybeGet_cons]; simp
    · cases h2 : k.Less e.1
      · rw [setEntry_cons_gt k v e rest h1 h2, MaybeGet_cons, if_neg (fun h => h1 h.symm)]
        exact ih
      · rw [setEntry_cons_lt k v e rest h1 h2, MaybeGet_cons]; simp

theorem MaybeGet_setEntry_other (k v k2 : Tuple) (l : List (Tuple × Tuple)) (hne : k2 ≠ k) :
    NomsMap.MaybeGet ⟨setEntry k v l⟩ k2 = NomsMap.MaybeGet ⟨l⟩ k2 := by
  have hne2 : ¬ k = k2 := fun h => hne h.symm
  induction l with
  | nil => simp [setEntry, NomsMap.MaybeGet, hne2]
  | cons e rest ih =>
    by_cases h1 : k = e.1
    · rw [setEntry_cons_eq k v e rest h1, MaybeGet_cons, MaybeGet_cons,
        if_neg (by simpa using hne2), if_neg (fun h => hne2 (h1.trans h))]
    · cases h2 : k.Less e.1
      · rw [setEntry_cons_gt k v e rest h1 h2, MaybeGet_cons, MaybeGet_cons, ih]
      · rw [setEntry_cons_lt k v e rest h1 h2, MaybeGet_cons, if_neg (by simpa using hne2)]

theorem MaybeGet_eq_none_iff (l : List (Tuple × Tuple)) (k : Tuple) :
    NomsMap.MaybeGet ⟨l⟩ k = none ↔ ∀ e ∈ l, e.1 ≠ k := by
  induction l with
  | nil => simp [NomsMap.MaybeGet]
  | cons e rest ih =>
    rw [MaybeGet_cons]
    by_cases h : e.1 = k
    · simp [h]
    · simp [h, ih]

theorem length_setEntry_absent (k v : Tuple) (l : List (Tuple × Tuple))
    (h : ∀ e ∈ l, e.1 ≠ k) : (setEntry k v l).length = l.length + 1 := by
  induction l with
  | nil => simp [setEntry]
  | cons e rest ih =>
    have h1 : ¬ k = e.1 := fun hh => h e (List.mem_cons_self _ _) hh.symm
    cases h2 : k.Less e.1
    · rw [setEntry_cons_gt k v e rest h1 h2]
      simp [ih (fun x hx => h x (List.mem_cons_of_mem _ hx))]
    · rw [setEntry_cons_lt k v e rest h1 h2]; simp

theorem count_setEntry_absent (k v : Tuple) (l : List (Tuple × Tuple))
    (h : ∀ e ∈ l, e.1 ≠ k) : ((setEntry k v l).filter fun e => e.1 = k).length = 1 := by
  induction l with
  | nil => simp [setEntry]
  | cons e rest ih =>
    have h0 : ¬ e.1 = k := h e (List.mem_cons_self _ _)
    have h1 : ¬ k = e.1 := fun hh => h0 hh.symm
    have hrest : ∀ x ∈ rest, x.1 ≠ k := fun x hx => h x (List.mem_cons_of_mem _ hx)
    have hnone : rest.filter (fun e => decide (e.1 = k)) = [] := by
      apply List.filter_eq_nil_iff.mpr
      intro x hx
      simpa using hrest x hx
    cases h2 : k.Less e.1
    · rw [setEntry_cons_gt k v e rest h1 h2, List.filter_cons]
      simp only [h0, decide_False, Bool.false_eq_true, if_false]
      exact ih hrest
    · rw [setEntry_cons_lt k v e rest h1 h2]
      simp [List.filter_cons, h0, hnone]

theorem mem_setEntry (k v : Tuple) (l : List (Tuple × Tuple)) (x : Tuple × Tuple)
    (hx : x ∈ setEntry k v l) : x = (k, v) ∨ x ∈ l := by
  induction l with
  | nil => simpa [setEntry] using hx
  | cons e rest ih =>
    by_cases h1 : k = e.1
    · rw [setEntry_cons_eq k v e rest h1] at hx
      rcases List.mem_cons.mp hx with h | h
      · exact Or.inl h
      · exact Or.inr (List.mem_cons_of_mem _ h)
    · cases h2 : k.Less e.1
      · rw [setEntry_cons_gt k v e rest h1 h2] at hx
        rcases List.mem_cons.mp hx with h | h
        · exact Or.inr (h ▸ List.mem_cons_self _ _)
        · rcases ih h with h | h
          · exact Or.inl h
          · exact Or.inr (List.mem_cons_of_mem _ h)
      · rw [setEntry_cons_lt k v e rest h1 h2] at hx
        rcases List.mem_cons.mp hx with h | h
        · exact Or.inl h
        · exact Or.inr h

theorem setEntry_ascending (k v : Tuple) (l : List (Tuple × Tuple))
    (h : l.Pairwise fun a b => a.1.Less b.1 = true) :
    (setEntry k v l).Pairwise fun a b => a.1.Less b.1 = true := by
  induction l with
  | nil => simp [setEntry]
  | cons e rest ih =>
    rw [List.pairwise_cons] at h
    by_cases h1 : k = e.1
    · rw [setEntry_cons_eq k v e rest h1, List.pairwise_cons]
      exact ⟨fun x hx => by simpa [h1] using h.1 x hx, h.2⟩
    · cases h2 : k.Less e.1
      · rw [setEntry_cons_gt k v e rest h1 h2, List.pairwise_cons]
        refine ⟨?_, ih h.2⟩
        intro x hx
        rcases mem_setEntry k v rest x hx with hxe | hxm
        · rw [hxe]; exact Tuple.Less_total h2 h1
        · exact h.1 x hxm
      · rw [setEntry_cons_lt k v e rest h1 h2, List.pairwise_cons, List.pairwise_cons]
        refine ⟨?_, h.1, h.2⟩
        intro x hx
        rcases List.mem_cons.mp hx with rfl | hx
        · exact h2
        · exact Tuple.Less_trans h2 (h.1 x hx)

/-! ### Insert -/

theorem Insert_flag_false_state (t : DoltTable) (ctx : Env) (sqlRow : SqlRow)
    (h : (t.Insert ctx sqlRow).1.1 = false) : (t.Insert ctx sqlRow).2 = t := by
  unfold DoltTable.Insert at h ⊢
  repeat' split
  all_goals first | rfl | simp_all

theorem Insert_error_flag (t : DoltTable) (ctx : Env) (sqlRow : SqlRow)
    (h : (t.Insert ctx sqlRow).1.2 ≠ none) : (t.Insert ctx sqlRow).1.1 = false := by
  unfold DoltTable.Insert at h ⊢
  repeat' split
  all_goals first | rfl | simp_all

theorem pkLoop_ok (ctx : Env) (dRow : Row) (hval : ∀ v, ctx.valueErr v = none)
    (tags : List Nat) (hpk : ∀ tag ∈ tags, dRow.GetColVal tag ≠ none) (tv : TaggedValues) :
    ∃ tv2, DoltTable.Insert.pkLoop ctx dRow tags tv = .ok tv2 ∧
      ∀ x, TaggedValues.Get tv2 x =
        if x ∈ tags then dRow.GetColVal x else TaggedValues.Get tv x := by
  induction tags generalizing tv with
  | nil => exact ⟨tv, rfl, fun x => by simp⟩
  | cons a rest ih =>
    have ha : dRow.GetColVal a ≠ none := hpk a (List.mem_cons_self _ _)
    obtain ⟨v, hv⟩ := Option.ne_none_iff_exists'.mp ha
    obtain ⟨tv2, h2, h3⟩ := ih (fun x hx => hpk x (List.mem_cons_of_mem _ hx))
      (TaggedValues.Set tv a v)
    refine ⟨tv2, ?_, ?_⟩
    · simp only [DoltTable.Insert.pkLoop, hv, Value.Value, hval]
      exact h2
    · intro x
      rw [h3 x, TaggedValues.Get_Set]
      by_cases hx : x ∈ rest
      · simp [hx]
      · by_cases hax : a = x
        · subst hax; simp [hx, hv]
        · have : ¬ x = a := fun h => hax h.symm
          simp [hx, hax, this]

theorem pkLoop_missing (ctx : Env) (dRow : Row) (hval : ∀ v, ctx.valueErr v = none)
    (tags : List Nat) (tag : Nat) (hmem : tag ∈ tags) (hnone : dRow.GetColVal tag = none)
    (tv : TaggedValues) :
    DoltTable.Insert.pkLoop ctx dRow tags tv =
      .error (GoError.New "error: primary key missing from values") := by
  induction tags generalizing tv with
  | nil => simp at hmem
  | cons a rest ih =>
    cases hv : dRow.GetColVal a with
    | none => simp [DoltTable.Insert.pkLoop, hv]
    | some v =>
      have hne : tag ≠ a := fun h => by rw [h, hv] at hnone; cases hnone
      have hrest : tag ∈ rest := by
        rcases List.mem_cons.mp hmem with h | h
        · exact absurd h hne
        · exact h
      simp only [DoltTable.Insert.pkLoop, hv, Value.Value, hval]
      exact ih hrest _

theorem SqlRowToDoltRow_ok (ctx : Env) (nbf : NomsBinFormat) (r : SqlRow) (sch : Schema)
    (dRow : Row) (h : SqlRowToDoltRow ctx nbf r sch = .ok dRow) :
    dRow = ⟨(SqlRowToDoltRow.loop ctx 0 r []).filter (fun p => p.1 ∈ sch.GetPKCols.Tags),
            (SqlRowToDoltRow.loop ctx 0 r []).filter (fun p => p.1 ∉ sch.GetPKCols.Tags)⟩ := by
  unfold SqlRowToDoltRow Row.New at h
  split at h
  · cases h
  · injection h with h; exact h.symm

theorem GetColVal_pk_of_SqlRowToDoltRow (ctx : Env) (nbf : NomsBinFormat) (r : SqlRow)
    (sch : Schema) (dRow : Row) (h : SqlRowToDoltRow ctx nbf r sch = .ok dRow)
    (tag : Nat) (htag : tag ∈ sch.GetPKCols.Tags) :
    dRow.GetColVal tag = TaggedValues.Get dRow.key tag := by
  have hd := SqlRowToDoltRow_ok ctx nbf r sch dRow h
  have hv : TaggedValues.Get dRow.value tag = none := by
    rw [hd]
    have := TaggedValues.Get_filter (fun x => decide (x ∉ sch.GetPKCols.Tags))
      (SqlRowToDoltRow.loop ctx 0 r []) tag
    simp only [this, htag, not_true_eq_false, decide_False, Bool.false_eq_true, if_false]
  unfold Row.GetColVal
  rw [hv]
  cases TaggedValues.Get dRow.key tag <;> rfl

/-- The key that `Insert` looks up with `GetRowByPKVals` is the key that it stores with
`dRow.NomsMapKey`. -/
theorem pkLoop_key (ctx : Env) (nbf : NomsBinFormat) (r : SqlRow) (sch : Schema) (dRow : Row)
    (h : SqlRowToDoltRow ctx nbf r sch = .ok dRow) (hval : ∀ v, ctx.valueErr v = none)
    (hpk : ∀ tag ∈ sch.GetPKCols.Tags, dRow.GetColVal tag ≠ none) :
    ∃ tv, DoltTable.Insert.pkLoop ctx dRow sch.GetPKCols.Tags [] = .ok tv ∧
      TaggedValues.NomsTupleForTags tv sch.GetPKCols.Tags true = dRow.NomsMapKey sch := by
  obtain ⟨tv, h1, h2⟩ := pkLoop_ok ctx dRow hval sch.GetPKCols.Tags hpk []
  refine ⟨tv, h1, ?_⟩
  unfold Row.NomsMapKey
  apply NomsTupleForTags_congr
  intro tag htag
  rw [h2 tag, if_pos htag, GetColVal_pk_of_SqlRowToDoltRow ctx nbf r sch dRow h tag htag]

theorem GetRowByPKVals_found (t : Table) (ctx : Env) (tv : TaggedValues) (sch : Schema)
    (hget : ∀ tb k, ctx.getRowErr tb k = none) (hdec : ∀ s k v, ctx.fromNomsErr s k v = none)
    (hmem : t.rowData.MaybeGet (TaggedValues.NomsTupleForTags tv sch.GetPKCols.Tags true) ≠ none) :
    ∃ r, t.GetRowByPKVals ctx tv sch = .ok (r, true) := by
  obtain ⟨f, hf⟩ := Option.ne_none_iff_exists'.mp hmem
  refine ⟨some ⟨ParseTaggedValues (TaggedValues.NomsTupleForTags tv sch.GetPKCols.Tags true),
    ParseTaggedValues f⟩, ?_⟩
  simp [Table.GetRowByPKVals, hget, hf, Row.FromNoms, hdec]

theorem GetRowByPKVals_absent (t : Table) (ctx : Env) (tv : TaggedValues) (sch : Schema)
    (hget : ∀ tb k, ctx.getRowErr tb k = none)
    (hmem : t.rowData.MaybeGet (TaggedValues.NomsTupleForTags tv sch.GetPKCols.Tags true) = none) :
    t.GetRowByPKVals ctx tv sch = .ok (none, false) := by
  simp [Table.GetRowByPKVals, hget, hmem]

theorem Insert_of_key_found (t : DoltTable) (ctx : Env) (sqlRow : SqlRow) (dRow : Row)
    (hctx : ctx.NoFaults)
    (hrow : SqlRowToDoltRow ctx t.table.Format sqlRow t.sch = .ok dRow)
    (hpk : ∀ tag ∈ t.sch.GetPKCols.Tags, dRow.GetColVal tag ≠ none)
    (hmem : t.table.rowData.MaybeGet (dRow.NomsMapKey t.sch) ≠ none) :
    t.Insert ctx sqlRow = ((false, none), t) := by
  obtain ⟨tv, h1, h2⟩ := pkLoop_key ctx t.table.Format sqlRow t.sch dRow hrow hctx.value hpk
  obtain ⟨r, hr⟩ := GetRowByPKVals_found t.table ctx tv t.sch hctx.getRow hctx.fromNoms
    (by rw [h2]; exact hmem)
  simp [DoltTable.Insert, hrow, h1, hr]

theorem Insert_of_key_absent (t : DoltTable) (ctx : Env) (sqlRow : SqlRow) (dRow : Row)
    (hctx : ctx.NoFaults)
    (hrow : SqlRowToDoltRow ctx t.table.Format sqlRow t.sch = .ok dRow)
    (hpk : ∀ tag ∈ t.sch.GetPKCols.Tags, dRow.GetColVal tag ≠ none)
    (hmem : t.table.rowData.MaybeGet (dRow.NomsMapKey t.sch) = none) :
    t.Insert ctx sqlRow =
      ((true, none),
       { t with
         table := { t.table with
           rowData := t.table.rowData.set (dRow.NomsMapKey t.sch) (dRow.NomsMapValue t.sch) }
         db := { root := ⟨putBinding t.name { t.table with
           rowData := t.table.rowData.set (dRow.NomsMapKey t.sch) (dRow.NomsMapValue t.sch) }
             t.db.root.tables⟩ } }) := by
  obtain ⟨tv, h1, h2⟩ := pkLoop_key ctx t.table.Format sqlRow t.sch dRow hrow hctx.value hpk
  have hr := GetRowByPKVals_absent t.table ctx tv t.sch hctx.getRow (by rw [h2]; exact hmem)
  simp [DoltTable.Insert, hrow, h1, hr, Table.GetRowData, hctx.getRowData, MapEditor.Map,
    hctx.map, NomsMap.Edit, MapEditor.Set, Table.UpdateRows, hctx.updateRows,
    RootValue.PutTable, hctx.putTable]

theorem GetTable_cons (e : String × Table) (rest : List (String × Table)) (n : String) :
    RootValue.GetTable ⟨e :: rest⟩ n = if e.1 = n then some e.2 else RootValue.GetTable ⟨rest⟩ n := by
  by_cases h : e.1 = n <;> simp [RootValue.GetTable, List.find?_cons, h]

theorem GetTable_putBinding_self (n : String) (tbl : Table) (l : List (String × Table)) :
    RootValue.GetTable ⟨putBinding n tbl l⟩ n = some tbl := by
  induction l with
  | nil => simp [putBinding, RootValue.GetTable]
  | cons e rest ih =>
    by_cases h : e.1 = n
    · simp [putBinding, h, GetTable_cons]
    · simp [putBinding, h, GetTable_cons, ih]

theorem GetTable_putBinding_other (n n2 : String) (tbl : Table) (l : List (String × Table))
    (hne : n2 ≠ n) :
    RootValue.GetTable ⟨putBinding n tbl l⟩ n2 = RootValue.GetTable ⟨l⟩ n2 := by
  have hne2 : ¬ n = n2 := fun h => hne h.symm
  induction l with
  | nil => simp [putBinding, RootValue.GetTable, hne2]
  | cons e rest ih =>
    by_cases h : e.1 = n
    · have h3 : ¬ e.1 = n2 := fun h4 => hne2 (h.symm.trans h4)
      simp [putBinding, h, GetTable_cons, hne2]
    · simp [putBinding, h, GetTable_cons, ih]

theorem UpdateRows_ok (t : Table) (ctx : Env) (u : NomsMap) (nt : Table)
    (h : t.UpdateRows ctx u = .ok nt) : nt = { t with rowData := u } := by
  unfold Table.UpdateRows at h
  split at h
  · cases h
  · injection h with h; exact h.symm

theorem PutTable_ok (r : RootValue) (ctx : Env) (n : String) (tb : Table) (nr : RootValue)
    (h : r.PutTable ctx n tb = .ok nr) : nr = ⟨putBinding n tb r.tables⟩ := by
  unfold RootValue.PutTable at h
  split at h
  · cases h
  · injection h with h; exact h.symm

theorem GetRowData_ok (t : Table) (ctx : Env) (m : NomsMap)
    (h : t.GetRowData ctx = .ok m) : m = t.rowData := by
  unfold Table.GetRowData at h
  split at h
  · cases h
  · injection h with h; exact h.symm

theorem Map_ok_single (m : NomsMap) (ctx : Env) (k v : Tuple) (u : NomsMap)
    (h : ((m.Edit).Set k v).Map ctx = .ok u) : u = m.set k v := by
  unfold MapEditor.Map at h
  split at h
  · cases h
  · injection h with h; rw [← h]; simp [NomsMap.Edit, MapEditor.Set]

theorem Insert_success_inv (t : DoltTable) (ctx : Env) (sqlRow : SqlRow)
    (hok : (t.Insert ctx sqlRow).1.1 = true) :
    ∃ dRow : Row, SqlRowToDoltRow ctx t.table.Format sqlRow t.sch = .ok dRow ∧
      (t.Insert ctx sqlRow).2 =
      { t with
        table := { t.table with
          rowData := t.table.rowData.set (dRow.NomsMapKey t.sch) (dRow.NomsMapValue t.sch) }
        db := { root := ⟨putBinding t.name { t.table with
          rowData := t.table.rowData.set (dRow.NomsMapKey t.sch) (dRow.NomsMapValue t.sch) }
            t.db.root.tables⟩ } } := by
  unfold DoltTable.Insert at hok ⊢
  split
  · simp_all
  · split
    · simp_all
    · split
      · simp_all
      · simp_all
      · split
        · simp_all
        · split
          · simp_all
          · split
            · simp_all
            · split
              · simp_all
              · rename_i dRow hrow _ _ _ _ _ _ _ typesMap hdata _ updated hmap _ newTable hupd _ newRoot hput
                refine ⟨dRow, hrow, ?_⟩
                rw [PutTable_ok _ _ _ _ _ hput, UpdateRows_ok _ _ _ _ hupd,
                  Map_ok_single _ _ _ _ _ hmap, GetRowData_ok _ _ _ hdata]

theorem Env.reliable_NoFaults (toNoms : SqlVal → Value) (toSql : Value → SqlVal) :
    (Env.reliable toNoms toSql).NoFaults :=
  ⟨fun _ _ => rfl, fun _ _ _ => rfl, fun _ => rfl, fun _ _ => rfl, fun _ => rfl, fun _ => rfl,
   fun _ _ => rfl, fun _ _ _ => rfl, fun _ => rfl, fun _ _ => rfl⟩

/-! ### The claims about Insert -/

/-- What `Insert` does when the key tuple it computes is found. The key tuple is that of
the dolt row as `SqlRowToDoltRow` builds it, each sql entry filed under its index: when the
row converts, has a value under every primary-key tag, and the lookup of that key tuple,
read without a store failure, finds an entry, `Insert` returns `(false, nil)` and leaves the
`DoltTable` exactly as it was. Where the tags of the schema are not the column positions
this key tuple is not the primary key of the sql row. -/
theorem DoltTable.Insert_duplicate_key (t : DoltTable) (ctx : Env) (sqlRow : SqlRow) (dRow : Row)
    (hctx : ctx.NoFaults)
    (hrow : SqlRowToDoltRow ctx t.table.Format sqlRow t.sch = .ok dRow)
    (hpk : ∀ tag ∈ t.sch.GetPKCols.Tags, dRow.GetColVal tag ≠ none)
    (hmem : t.table.rowData.MaybeGet (dRow.NomsMapKey t.sch) ≠ none) :
    (t.Insert ctx sqlRow).1 = (false, none) ∧
    (t.Insert ctx sqlRow).2.table = t.table ∧
    (t.Insert ctx sqlRow).2.db.root = t.db.root ∧
    (t.Insert ctx sqlRow).2 = t := by
  rw [Insert_of_key_found t ctx sqlRow dRow hctx hrow hpk hmem]
  exact ⟨rfl, rfl, rfl, rfl⟩

theorem DoltTable.Insert_duplicate_key_witness :
    exampleCtx.NoFaults ∧
    SqlRowToDoltRow exampleCtx peopleWithBart.table.Format bartRow peopleWithBart.sch
      = .ok bartDoltRow ∧
    peopleWithBart.table.rowData.MaybeGet (bartDoltRow.NomsMapKey peopleWithBart.sch) ≠ none ∧
    (peopleWithBart.Insert exampleCtx bartRow).1 = (false, none) ∧
    (peopleWithBart.Insert exampleCtx bartRow).2 = peopleWithBart :=
  ⟨Env.reliable_NoFaults _ _, rfl, by decide,
   (DoltTable.Insert_duplicate_key peopleWithBart exampleCtx bartRow bartDoltRow
      (Env.reliable_NoFaults _ _) rfl (by decide) (by decide)).1,
   (DoltTable.Insert_duplicate_key peopleWithBart exampleCtx bartRow bartDoltRow
      (Env.reliable_NoFaults _ _) rfl (by decide) (by decide)).2.2.2⟩

/-- What `Insert` does when the key tuple it computes is not found and no store operation
fails. The key and value tuples are those of the dolt row as `SqlRowToDoltRow` builds it,
each sql entry filed under its index: `Insert` returns `(true, nil)` and the row data
afterwards is the previous map with that key tuple bound to that value tuple: the key is
present with the value, every other key has the binding it had, and the number of rows has
grown by one. Where the tags of the schema are not the column positions these tuples are
not the primary key and the other values of the sql row. -/
theorem DoltTable.Insert_new_key (t : DoltTable) (ctx : Env) (sqlRow : SqlRow) (dRow : Row)
    (hctx : ctx.NoFaults)
    (hrow : SqlRowToDoltRow ctx t.table.Format sqlRow t.sch = .ok dRow)
    (hpk : ∀ tag ∈ t.sch.GetPKCols.Tags, dRow.GetColVal tag ≠ none)
    (habs : t.table.rowData.MaybeGet (dRow.NomsMapKey t.sch) = none) :
    (t.Insert ctx sqlRow).1 = (true, none) ∧
    (t.Insert ctx sqlRow).2.table.rowData =
      t.table.rowData.set (dRow.NomsMapKey t.sch) (dRow.NomsMapValue t.sch) ∧
    (t.Insert ctx sqlRow).2.table.rowData.MaybeGet (dRow.NomsMapKey t.sch) =
      some (dRow.NomsMapValue t.sch) ∧
    (∀ k, k ≠ dRow.NomsMapKey t.sch →
      (t.Insert ctx sqlRow).2.table.rowData.MaybeGet k = t.table.rowData.MaybeGet k) ∧
    (t.Insert ctx sqlRow).2.table.rowData.Len = t.table.rowData.Len + 1 := by
  rw [Insert_of_key_absent t ctx sqlRow dRow hctx hrow hpk habs]
  refine ⟨rfl, rfl, ?_, ?_, ?_⟩
  · exact MaybeGet_setEntry_self _ _ _
  · intro k hk
    exact MaybeGet_setEntry_other _ _ _ _ hk
  · exact length_setEntry_absent _ _ _ ((MaybeGet_eq_none_iff _ _).mp habs)

theorem DoltTable.Insert_new_key_witness :
    peopleEmpty.table.rowData.MaybeGet (bartDoltRow.NomsMapKey peopleEmpty.sch) = none ∧
    (peopleEmpty.Insert exampleCtx bartRow).1 = (true, none) ∧
    (peopleEmpty.Insert exampleCtx bartRow).2.table.rowData.Len = 0 + 1 :=
  ⟨by decide,
   (DoltTable.Insert_new_key peopleEmpty exampleCtx bartRow bartDoltRow
      (Env.reliable_NoFaults _ _) rfl (by decide) (by decide)).1,
   (DoltTable.Insert_new_key peopleEmpty exampleCtx bartRow bartDoltRow
      (Env.reliable_NoFaults _ _) rfl (by decide) (by decide)).2.2.2.2⟩

/-- What two calls of `Insert` do when the second row yields the key tuple of the first
and no store operation fails. The key tuples are those of the dolt rows as
`SqlRowToDoltRow` builds them, each sql entry filed under its index: when the key tuple is
absent at first, the first call returns `(true, nil)`, the second returns `(false, nil)` and
leaves the table as the first call left it, with the same row count and exactly one entry
under that key tuple. Where the tags of the schema are not the column positions two rows
with the same primary key need not yield the same key tuple. -/
theorem DoltTable.Insert_twice (t : DoltTable) (ctx : Env) (r r2 : SqlRow) (dRow dRow2 : Row)
    (hctx : ctx.NoFaults)
    (hrow : SqlRowToDoltRow ctx t.table.Format r t.sch = .ok dRow)
    (hrow2 : SqlRowToDoltRow ctx t.table.Format r2 t.sch = .ok dRow2)
    (hpk : ∀ tag ∈ t.sch.GetPKCols.Tags, dRow.GetColVal tag ≠ none)
    (hpk2 : ∀ tag ∈ t.sch.GetPKCols.Tags, dRow2.GetColVal tag ≠ none)
    (hkey : dRow2.NomsMapKey t.sch = dRow.NomsMapKey t.sch)
    (habs : t.table.rowData.MaybeGet (dRow.NomsMapKey t.sch) = none) :
    (t.Insert ctx r).1 = (true, none) ∧
    ((t.Insert ctx r).2.Insert ctx r2).1 = (false, none) ∧
    ((t.Insert ctx r).2.Insert ctx r2).2 = (t.Insert ctx r).2 ∧
    ((t.Insert ctx r).2.Insert ctx r2).2.table.rowData.Len =
      (t.Insert ctx r).2.table.rowData.Len ∧
    (((t.Insert ctx r).2.Insert ctx r2).2.table.rowData.entries.filter
      fun e => e.1 = dRow.NomsMapKey t.sch).length = 1 := by
  have h1 := Insert_of_key_absent t ctx r dRow hctx hrow hpk habs
  have hmem : (t.Insert ctx r).2.table.rowData.MaybeGet
      (dRow2.NomsMapKey (t.Insert ctx r).2.sch) ≠ none := by
    rw [h1]
    show NomsMap.MaybeGet ⟨setEntry _ _ _⟩ (dRow2.NomsMapKey t.sch) ≠ none
    rw [hkey, MaybeGet_setEntry_self]
    simp
  have h2 := Insert_of_key_found (t.Insert ctx r).2 ctx r2 dRow2 hctx
    (by rw [h1]; exact hrow2) (by rw [h1]; exact hpk2) hmem
  rw [h2]
  refine ⟨by rw [h1], rfl, rfl, rfl, ?_⟩
  rw [h1]
  exact count_setEntry_absent _ _ _ ((MaybeGet_eq_none_iff _ _).mp habs)

theorem DoltTable.Insert_twice_witness :
    (peopleEmpty.Insert exampleCtx bartRow).1 = (true, none) ∧
    ((peopleEmpty.Insert exampleCtx bartRow).2.Insert exampleCtx bartRow).1 = (false, none) ∧
    ((peopleEmpty.Insert exampleCtx bartRow).2.Insert exampleCtx bartRow).2 =
      (peopleEmpty.Insert exampleCtx bartRow).2 ∧
    ((peopleEmpty.Insert exampleCtx bartRow).2.Insert exampleCtx bartRow).2.table.rowData.Len =
      (peopleEmpty.Insert exampleCtx bartRow).2.table.rowData.Len ∧
    (((peopleEmpty.Insert exampleCtx bartRow).2.Insert exampleCtx bartRow).2.table.rowData.entries.filter
      fun e => e.1 = bartDoltRow.NomsMapKey peopleEmpty.sch).length = 1 :=
  DoltTable.Insert_twice peopleEmpty exampleCtx bartRow bartRow bartDoltRow bartDoltRow
    (Env.reliable_NoFaults _ _) rfl rfl (by decide) (by decide) rfl (by decide)

/-- C4. Whenever `Insert` returns a non-nil error, whichever step produced it (row
construction, a missing or unreadable primary-key value, reading the table, editing the
map, updating the rows, writing the table into the root), the result flag is false and
`t.table` and `t.db.root` are exactly what they were before the call. -/
theorem DoltTable.Insert_error_unchanged (t : DoltTable) (ctx : Env) (sqlRow : SqlRow)
    (herr : (t.Insert ctx sqlRow).1.2 ≠ none) :
    (t.Insert ctx sqlRow).1.1 = false ∧
    (t.Insert ctx sqlRow).2.table = t.table ∧
    (t.Insert ctx sqlRow).2.db.root = t.db.root ∧
    (t.Insert ctx sqlRow).2 = t := by
  have hflag := Insert_error_flag t ctx sqlRow herr
  have hstate := Insert_flag_false_state t ctx sqlRow hflag
  exact ⟨hflag, by rw [hstate], by rw [hstate], hstate⟩

theorem DoltTable.Insert_error_unchanged_witness :
    (peopleWithBart.Insert exampleCtx [none, some (.str "Lisa")]).1.2 ≠ none ∧
    (peopleWithBart.Insert exampleCtx [none, some (.str "Lisa")]).1.1 = false ∧
    (peopleWithBart.Insert exampleCtx [none, some (.str "Lisa")]).2 = peopleWithBart :=
  ⟨by decide,
   (DoltTable.Insert_error_unchanged peopleWithBart exampleCtx [none, some (.str "Lisa")]
      (by decide)).1,
   (DoltTable.Insert_error_unchanged peopleWithBart exampleCtx [none, some (.str "Lisa")]
      (by decide)).2.2.2⟩

/-- C5. After a successful `Insert` on the table named `t.name`, the root `t.db.root` is the
previous root with `t.name` rebound to the new table, `t.table` is that same new table, and
every other table name has the binding it had in the previous root. -/
theorem DoltTable.Insert_root_frame (t : DoltTable) (ctx : Env) (sqlRow : SqlRow)
    (hok : (t.Insert ctx sqlRow).1.1 = true) :
    (t.Insert ctx sqlRow).2.db.root =
      ⟨putBinding t.name (t.Insert ctx sqlRow).2.table t.db.root.tables⟩ ∧
    (t.Insert ctx sqlRow).2.db.root.GetTable t.name = some (t.Insert ctx sqlRow).2.table ∧
    (∀ n, n ≠ t.name →
      (t.Insert ctx sqlRow).2.db.root.GetTable n = t.db.root.GetTable n) ∧
    (t.Insert ctx sqlRow).2.name = t.name := by
  obtain ⟨dRow, _, h⟩ := Insert_success_inv t ctx sqlRow hok
  rw [h]
  refine ⟨rfl, ?_, ?_, rfl⟩
  · exact GetTable_putBinding_self _ _ _
  · intro n hn
    exact GetTable_putBinding_other _ _ _ _ hn

theorem DoltTable.Insert_root_frame_witness :
    (peopleWithBart.Insert exampleCtx homerRow).1.1 = true ∧
    (peopleWithBart.Insert exampleCtx homerRow).2.db.root.GetTable "people" =
      some (peopleWithBart.Insert exampleCtx homerRow).2.table ∧
    (peopleWithBart.Insert exampleCtx homerRow).2.db.root.GetTable "episodes" =
      peopleWithBart.db.root.GetTable "episodes" ∧
    peopleWithBart.db.root.GetTable "episodes" = some episodesTable :=
  ⟨by decide,
   (DoltTable.Insert_root_frame peopleWithBart exampleCtx homerRow (by decide)).2.1,
   (DoltTable.Insert_root_frame peopleWithBart exampleCtx homerRow (by decide)).2.2.1
     "episodes" (by decide),
   by decide⟩

/-! ### Iterators -/

theorem partition_NextN_exhausted (i : Int) (hi : i > 0) (n : Nat) :
    doltTablePartitionIter.NextN ⟨i⟩ n = List.replicate n (none, some GoError.EOF) := by
  induction n with
  | zero => rfl
  | succ k ih =>
    simp only [doltTablePartitionIter.NextN, doltTablePartitionIter.Next, hi, if_true,
      List.replicate_succ]
    rw [ih]

/-- C7. The partition iterator returned by `Partitions` yields exactly one partition: the
first call of `Next` returns a partition and a nil error, and each of the following calls,
however many, returns `io.EOF`. -/
theorem DoltTable.Partitions_single (t : DoltTable) (ctx : Env) (n : Nat) :
    ∃ itr : doltTablePartitionIter, t.Partitions ctx = .ok itr ∧
      itr.NextN (n + 1) =
        (some doltTablePartition.mk, none) :: List.replicate n (none, some GoError.EOF) := by
  refine ⟨⟨0⟩, rfl, ?_⟩
  simp only [doltTablePartitionIter.NextN, doltTablePartitionIter.Next, gt_iff_lt, lt_self_iff_false,
    if_false, zero_add]
  rw [partition_NextN_exhausted 1 (by decide) n]

theorem drop_cons_get? {α : Type} (l : List α) (pos : Nat) (e : α) (rest : List α)
    (h : l.drop pos = e :: rest) : l.get? pos = some e ∧ l.drop (pos + 1) = rest := by
  induction l generalizing pos with
  | nil => simp at h
  | cons a l ih =>
    cases pos with
    | zero =>
      simp only [List.drop_zero, List.cons.injEq] at h
      simp [h.1, h.2]
    | succ p =>
      simp only [List.drop_succ_cons] at h
      simpa using ih p h

theorem rowIter_NextN_exhausted (ctx : Env) (hctx : ctx.NoFaults) (rd m : NomsMap) (pos : Nat)
    (hpos : m.entries.drop pos = []) (tbls : List DoltTable) :
    doltTableRowIter.NextN ⟨rd, ⟨m, pos⟩⟩ ctx tbls =
      List.replicate tbls.length (none, some GoError.EOF) := by
  have hget : m.entries.get? pos = none := by
    rw [List.get?_eq_none]
    exact List.drop_eq_nil_iff.mp hpos
  induction tbls with
  | nil => rfl
  | cons t rest ih =>
    simp only [doltTableRowIter.NextN, doltTableRowIter.Next, MapIterator.Next, hctx.iterNext,
      hget, List.length_cons, List.replicate_succ]
    rw [ih]

/-- From any position, the iterator yields the decoded remaining entries, then `io.EOF`. -/
theorem rowIter_NextN_rows (ctx : Env) (hctx : ctx.NoFaults) (t : DoltTable) (rd m : NomsMap)
    (n : Nat) (l : List (Tuple × Tuple)) (pos : Nat) (hl : m.entries.drop pos = l) :
    doltTableRowIter.NextN ⟨rd, ⟨m, pos⟩⟩ ctx (List.replicate (l.length + n) t) =
      (l.map fun e => (some (t.sch.GetAllCols.Tags.map fun tag =>
          doltColValToSqlColVal ctx
            ((⟨ParseTaggedValues e.1, ParseTaggedValues e.2⟩ : Row).GetColVal tag)), none)) ++
        List.replicate n (none, some GoError.EOF) := by
  induction l generalizing pos with
  | nil =>
    rw [rowIter_NextN_exhausted ctx hctx rd m pos hl]
    simp
  | cons e rest ih =>
    obtain ⟨hget, hdrop⟩ := drop_cons_get? m.entries pos e rest hl
    have hlen : (e :: rest).length + n = (rest.length + n) + 1 := by simp; omega
    rw [hlen, List.replicate_succ]
    simp only [doltTableRowIter.NextN, doltTableRowIter.Next, MapIterator.Next, hctx.iterNext,
      hget, Row.FromNoms, hctx.fromNoms, doltRowToSqlRow, List.map_cons, List.cons_append]
    rw [ih (pos + 1) hdrop]

theorem newRowIterator_ok (t : DoltTable) (ctx : Env) (hctx : ctx.NoFaults) :
    newRowIterator t ctx = .ok ⟨t.table.rowData, ⟨t.table.rowData, 0⟩⟩ := by
  simp [newRowIterator, Table.GetRowData, hctx.getRowData, NomsMap.Iterator, hctx.iterator]

theorem newRowIterator_snapshot (t : DoltTable) (ctx : Env) (itr : doltTableRowIter)
    (h : newRowIterator t ctx = .ok itr) :
    itr = ⟨t.table.rowData, ⟨t.table.rowData, 0⟩⟩ := by
  unfold newRowIterator Table.GetRowData NomsMap.Iterator at h
  split at h
  · cases h
  · rename_i rowData hrd
    split at hrd
    · cases hrd
    · injection hrd with hrd
      subst hrd
      split at h
      · cases h
      · rename_i mapIter hmi
        split at hmi
        · cases hmi
        · injection hmi with hmi
          injection h with h
          rw [← h, ← hmi]

/-- The method `Insert` keeps the row map ordered, whether it inserts or not. -/
theorem Insert_preserves_Ordered (t : DoltTable) (ctx : Env) (sqlRow : SqlRow)
    (hord : t.table.rowData.Ordered) : (t.Insert ctx sqlRow).2.table.rowData.Ordered := by
  cases hflag : (t.Insert ctx sqlRow).1.1 with
  | false => rw [Insert_flag_false_state t ctx sqlRow hflag]; exact hord
  | true =>
    obtain ⟨dRow, _, h⟩ := Insert_success_inv t ctx sqlRow hflag
    rw [h]
    exact setEntry_ascending _ _ _ hord

/-- C6. When no decode or store error occurs, the row iterator returned by
`PartitionRows` yields exactly one row per entry of the row-data map of the table, in the
order of the map iterator, each row decoded from the key and value tuples of its entry, and
after these rows every call returns `io.EOF`: the first `Len` calls yield the rows, so the
scan is finite. When the map is ordered, as every map built by `Insert` is, that order is
the ascending key order. -/
theorem DoltTable.PartitionRows_scan (t : DoltTable) (ctx : Env) (part : doltTablePartition)
    (hctx : ctx.NoFaults) (n : Nat) :
    ∃ itr : doltTableRowIter, t.PartitionRows ctx part = .ok itr ∧
      itr.NextN ctx (List.replicate (t.table.rowData.Len + n) t) =
        (t.table.rowData.entries.map fun e =>
          (some (t.sch.GetAllCols.Tags.map fun tag =>
            doltColValToSqlColVal ctx
              ((⟨ParseTaggedValues e.1, ParseTaggedValues e.2⟩ : Row).GetColVal tag)), none)) ++
          List.replicate n (none, some GoError.EOF) ∧
      (t.table.rowData.Ordered →
        ∀ (i j : Fin t.table.rowData.entries.length), i < j →
          (t.table.rowData.entries.get i).1.Less (t.table.rowData.entries.get j).1 = true) := by
  refine ⟨⟨t.table.rowData, ⟨t.table.rowData, 0⟩⟩, newRowIterator_ok t ctx hctx, ?_, ?_⟩
  · exact rowIter_NextN_rows ctx hctx t _ _ n _ 0 rfl
  · intro hord i j hij
    exact List.pairwise_iff_get.mp hord i j hij

theorem DoltTable.PartitionRows_scan_witness :
    exampleCtx.NoFaults ∧
    ∃ itr : doltTableRowIter, peopleWithBart.PartitionRows exampleCtx {} = .ok itr ∧
      itr.NextN exampleCtx (List.replicate (peopleWithBart.table.rowData.Len + 2) peopleWithBart) =
        (peopleWithBart.table.rowData.entries.map fun e =>
          (some (peopleWithBart.sch.GetAllCols.Tags.map fun tag =>
            doltColValToSqlColVal exampleCtx
              ((⟨ParseTaggedValues e.1, ParseTaggedValues e.2⟩ : Row).GetColVal tag)), none)) ++
          List.replicate 2 (none, some GoError.EOF) ∧
      (peopleWithBart.table.rowData.Ordered →
        ∀ (i j : Fin peopleWithBart.table.rowData.entries.length), i < j →
          (peopleWithBart.table.rowData.entries.get i).1.Less
            (peopleWithBart.table.rowData.entries.get j).1 = true) :=
  ⟨Env.reliable_NoFaults _ _,
   DoltTable.PartitionRows_scan peopleWithBart exampleCtx {} (Env.reliable_NoFaults _ _) 2⟩

theorem rowIter_Next_congr (itr : doltTableRowIter) (t1 t2 : DoltTable) (ctx : Env)
    (h : t1.sch = t2.sch) : itr.Next t1 ctx = itr.Next t2 ctx := by
  unfold doltTableRowIter.Next
  rw [h]

theorem rowIter_NextN_congr (ctx : Env) (t : DoltTable) (tbls : List DoltTable)
    (h : ∀ x ∈ tbls, x.sch = t.sch) (itr : doltTableRowIter) :
    itr.NextN ctx tbls = itr.NextN ctx (List.replicate tbls.length t) := by
  induction tbls generalizing itr with
  | nil => rfl
  | cons x rest ih =>
    have hx : x.sch = t.sch := h x (List.mem_cons_self _ _)
    simp only [doltTableRowIter.NextN, List.length_cons, List.replicate_succ]
    rw [rowIter_Next_congr itr x t ctx hx, ih (fun y hy => h y (List.mem_cons_of_mem _ hy))]

/-- C8. A row iterator created by `PartitionRows` on `t` walks the row data that `t.table`
had at that moment. After a successful `Insert` on the same `DoltTable`, whenever it happens
(after `n` calls of `Next`, with `m` calls following it), the iterator returns exactly what it
would have returned had the `Insert` not happened, although `Insert` has reassigned
`t.table`: the inserted row does not appear in the scan in flight. -/
theorem DoltTable.scan_ignores_Insert (t : DoltTable) (ctx : Env) (part : doltTablePartition)
    (sqlRow : SqlRow) (itr : doltTableRowIter)
    (hitr : t.PartitionRows ctx part = .ok itr)
    (hok : (t.Insert ctx sqlRow).1.1 = true) (n m : Nat) :
    itr.NextN ctx (List.replicate n t ++ List.replicate m (t.Insert ctx sqlRow).2) =
      itr.NextN ctx (List.replicate (n + m) t) ∧
    itr.rowData = t.table.rowData ∧ itr.nomsIter = ⟨t.table.rowData, 0⟩ := by
  have hsnap := newRowIterator_snapshot t ctx itr hitr
  obtain ⟨dRow, _, h⟩ := Insert_success_inv t ctx sqlRow hok
  refine ⟨?_, by rw [hsnap], by rw [hsnap]⟩
  have := rowIter_NextN_congr ctx t
    (List.replicate n t ++ List.replicate m (t.Insert ctx sqlRow).2) (by
      intro x hx
      rcases List.mem_append.mp hx with hx | hx
      · rw [List.eq_of_mem_replicate hx]
      · rw [List.eq_of_mem_replicate hx, h]) itr
  simpa using this

theorem DoltTable.scan_ignores_Insert_witness :
    peopleWithBart.PartitionRows exampleCtx {} =
      .ok ⟨peopleWithBart.table.rowData, ⟨peopleWithBart.table.rowData, 0⟩⟩ ∧
    (peopleWithBart.Insert exampleCtx homerRow).1.1 = true ∧
    (peopleWithBart.Insert exampleCtx homerRow).2.table.rowData.Len = 2 ∧
    doltTableRowIter.NextN ⟨peopleWithBart.table.rowData, ⟨peopleWithBart.table.rowData, 0⟩⟩
        exampleCtx
        (List.replicate 0 peopleWithBart ++
          List.replicate 3 (peopleWithBart.Insert exampleCtx homerRow).2) =
      doltTableRowIter.NextN ⟨peopleWithBart.table.rowData, ⟨peopleWithBart.table.rowData, 0⟩⟩
        exampleCtx (List.replicate (0 + 3) peopleWithBart) ∧
    doltTableRowIter.NextN ⟨peopleWithBart.table.rowData, ⟨peopleWithBart.table.rowData, 0⟩⟩
        exampleCtx (List.replicate (0 + 3) peopleWithBart) =
      [(some [some (.int 2), some (.str "Bart"), some (.str "Simpson")], none),
       (none, some GoError.EOF), (none, some GoError.EOF)] :=
  ⟨rfl, by decide, by decide,
   (DoltTable.scan_ignores_Insert peopleWithBart exampleCtx {} homerRow
      ⟨peopleWithBart.table.rowData, ⟨peopleWithBart.table.rowData, 0⟩⟩ rfl (by decide) 0 3).1,
   by decide⟩

/-! ### A missing primary-key value -/

/-- What `Insert` does when the dolt row has no value under a primary-key tag (the row was
constructed and the primary-key values before it could be read): it fails with the
missing-primary-key error, returns false and leaves the `DoltTable` as it was. -/
theorem Insert_missing_pk_tag (t : DoltTable) (ctx : Env) (sqlRow : SqlRow) (dRow : Row)
    (hval : ∀ v, ctx.valueErr v = none)
    (hrow : SqlRowToDoltRow ctx t.table.Format sqlRow t.sch = .ok dRow)
    (tag : Nat) (htag : tag ∈ t.sch.GetPKCols.Tags) (hnone : dRow.GetColVal tag = none) :
    t.Insert ctx sqlRow =
      ((false, some (GoError.New "error: primary key missing from values")), t) := by
  have h := pkLoop_missing ctx dRow hval t.sch.GetPKCols.Tags tag htag hnone []
  simp [DoltTable.Insert, hrow, h]

/-- C9 at a schema whose tags are not the column positions. The primary-key column `id` is
the first column of `swappedSch` and has tag 1; the sql row `[nil, 5]` has no value for it.
`SqlRowToDoltRow` files the second entry under tag 1 (its index), so `Insert` finds a
primary-key value, reports no error, returns true and stores a row keyed by 5; a scan then
returns 5 as the value of `id`. -/
theorem DoltTable.Insert_nil_pk_swapped_tags :
    swappedEmpty.sch.GetAllCols.cols.get? 0 = some ⟨"id", 1, true⟩ ∧
    ([none, some (.int 5)] : SqlRow).get? 0 = some none ∧
    (swappedEmpty.Insert exampleCtx [none, some (.int 5)]).1 = (true, none) ∧
    (swappedEmpty.Insert exampleCtx [none, some (.int 5)]).2.table.rowData =
      ⟨[(⟨[(1, .int 5)]⟩, ⟨[]⟩)]⟩ ∧
    (swappedEmpty.Insert exampleCtx [none, some (.int 5)]).2 ≠ swappedEmpty ∧
    doltTableRowIter.NextN
        ⟨(swappedEmpty.Insert exampleCtx [none, some (.int 5)]).2.table.rowData,
         ⟨(swappedEmpty.Insert exampleCtx [none, some (.int 5)]).2.table.rowData, 0⟩⟩
        exampleCtx [swappedEmpty, swappedEmpty] =
      [(some [some (.int 5), none], none), (none, some GoError.EOF)] := by
  refine ⟨rfl, rfl, ?_, ?_, ?_, ?_⟩ <;> decide

/-! ### Structs -/

theorem codePoints_injective (a b : String)
    (h : a.data.map Char.toNat = b.data.map Char.toNat) : a = b := by
  have h2 : a.data = b.data := by
    apply List.map_injective_iff.mpr _ h
    intro c d hcd
    exact Char.ext (UInt32.ext (by simpa [Char.toNat] using hcd))
  exact String.ext h2

theorem fieldLess_irrefl (a : String) : fieldLess a a = false := by
  simp [fieldLess]

theorem fieldLess_ne {a b : String} (h : fieldLess a b = true) : a ≠ b := by
  intro hab
  rw [hab, fieldLess_irrefl] at h
  cases h

theorem fieldLess_trans {a b c : String} (h1 : fieldLess a b = true) (h2 : fieldLess b c = true) :
    fieldLess a c = true := by
  simp only [fieldLess, decide_eq_true_eq] at *
  exact lt_trans h1 h2

theorem fieldLess_total {a b : String} (h1 : fieldLess a b = false) (h2 : a ≠ b) :
    fieldLess b a = true := by
  simp only [fieldLess, decide_eq_true_eq, decide_eq_false_iff_not, not_lt] at *
  exact lt_of_le_of_ne h1 (fun h => h2 (codePoints_injective _ _ h.symm))

theorem fieldLess_asymm {a b : String} (h : fieldLess a b = true) : fieldLess b a = false := by
  simp only [fieldLess, decide_eq_true_eq, decide_eq_false_iff_not, not_lt] at *
  exact le_of_lt h

theorem setField_cons_eq (n : String) (v : Value) (e : String × Value)
    (rest : List (String × Value)) (h : n = e.1) :
    setField n v (e :: rest) = (n, v) :: rest := by
  simp [setField, h]

theorem setField_cons_lt (n : String) (v : Value) (e : String × Value)
    (rest : List (String × Value)) (h : n ≠ e.1) (hlt : fieldLess n e.1 = true) :
    setField n v (e :: rest) = (n, v) :: e :: rest := by
  simp [setField, h, hlt]

theorem setField_cons_gt (n : String) (v : Value) (e : String × Value)
    (rest : List (String × Value)) (h : n ≠ e.1) (hlt : fieldLess n e.1 = false) :
    setField n v (e :: rest) = e :: setField n v rest := by
  simp [setField, h, hlt]

theorem Struct.MaybeGet_field_cons (name : String) (e : String × Value) (rest : List (String × Value))
    (n : String) :
    Struct.MaybeGet ⟨name, e :: rest⟩ n =
      if e.1 = n then some e.2 else Struct.MaybeGet ⟨name, rest⟩ n := by
  by_cases h : e.1 = n <;> simp [Struct.MaybeGet, List.find?_cons, h]

theorem MaybeGet_setField_self (name n : String) (v : Value) (l : List (String × Value)) :
    Struct.MaybeGet ⟨name, setField n v l⟩ n = some v := by
  induction l with
  | nil => simp [setField, Struct.MaybeGet]
  | cons e rest ih =>
    by_cases h1 : n = e.1
    · rw [setField_cons_eq n v e rest h1, Struct.MaybeGet_field_cons]; simp
    · cases h2 : fieldLess n e.1
      · rw [setField_cons_gt n v e rest h1 h2, Struct.MaybeGet_field_cons, if_neg (fun h => h1 h.symm)]
        exact ih
      · rw [setField_cons_lt n v e rest h1 h2, Struct.MaybeGet_field_cons]; simp

theorem MaybeGet_setField_other (name n n2 : String) (v : Value) (l : List (String × Value))
    (hne : n2 ≠ n) :
    Struct.MaybeGet ⟨name, setField n v l⟩ n2 = Struct.MaybeGet ⟨name, l⟩ n2 := by
  have hne2 : ¬ n = n2 := fun h => hne h.symm
  induction l with
  | nil => simp [setField, Struct.MaybeGet, hne2]
  | cons e rest ih =>
    by_cases h1 : n = e.1
    · rw [setField_cons_eq n v e rest h1, Struct.MaybeGet_field_cons, Struct.MaybeGet_field_cons,
        if_neg (by simpa using hne2), if_neg (fun h => hne2 (h1.trans h))]
    · cases h2 : fieldLess n e.1
      · rw [setField_cons_gt n v e rest h1 h2, Struct.MaybeGet_field_cons, Struct.MaybeGet_field_cons, ih]
      · rw [setField_cons_lt n v e rest h1 h2, Struct.MaybeGet_field_cons,
          if_neg (by simpa using hne2)]

theorem mem_setField (n : String) (v : Value) (l : List (String × Value)) (x : String × Value)
    (hx : x ∈ setField n v l) : x = (n, v) ∨ x ∈ l := by
  induction l with
  | nil => simpa [setField] using hx
  | cons e rest ih =>
    by_cases h1 : n = e.1
    · rw [setField_cons_eq n v e rest h1] at hx
      rcases List.mem_cons.mp hx with h | h
      · exact Or.inl h
      · exact Or.inr (List.mem_cons_of_mem _ h)
    · cases h2 : fieldLess n e.1
      · rw [setField_cons_gt n v e rest h1 h2] at hx
        rcases List.mem_cons.mp hx with h | h
        · exact Or.inr (h ▸ List.mem_cons_self _ _)
        · rcases ih h with h | h
          · exact Or.inl h
          · exact Or.inr (List.mem_cons_of_mem _ h)
      · rw [setField_cons_lt n v e rest h1 h2] at hx
        rcases List.mem_cons.mp hx with h | h
        · exact Or.inl h
        · exact Or.inr h

theorem setField_ascending (n : String) (v : Value) (l : List (String × Value))
    (h : l.Pairwise fun a b => fieldLess a.1 b.1 = true) :
    (setField n v l).Pairwise fun a b => fieldLess a.1 b.1 = true := by
  induction l with
  | nil => simp [setField]
  | cons e rest ih =>
    rw [List.pairwise_cons] at h
    by_cases h1 : n = e.1
    · rw [setField_cons_eq n v e rest h1, List.pairwise_cons]
      exact ⟨fun x hx => by simpa [h1] using h.1 x hx, h.2⟩
    · cases h2 : fieldLess n e.1
      · rw [setField_cons_gt n v e rest h1 h2, List.pairwise_cons]
        refine ⟨?_, ih h.2⟩
        intro x hx
        rcases mem_setField n v rest x hx with hxe | hxm
        · rw [hxe]; exact fieldLess_total h2 h1
        · exact h.1 x hxm
      · rw [setField_cons_lt n v e rest h1 h2, List.pairwise_cons, List.pairwise_cons]
        refine ⟨?_, h.1, h.2⟩
        intro x hx
        rcases List.mem_cons.mp hx with rfl | hx
        · exact h2
        · exact fieldLess_trans h2 (h.1 x hx)

theorem setField_of_head_greater (n : String) (v : Value) (l : List (String × Value))
    (h : ∀ p ∈ l, fieldLess n p.1 = true) : setField n v l = (n, v) :: l := by
  cases l with
  | nil => rfl
  | cons e rest =>
    have hlt := h e (List.mem_cons_self _ _)
    exact setField_cons_lt n v e rest (fieldLess_ne hlt) hlt

theorem filter_ne_of_all_greater (n : String) (l : List (String × Value))
    (h : ∀ p ∈ l, fieldLess n p.1 = true) : l.filter (fun p => p.1 ≠ n) = l := by
  apply List.filter_eq_self.mpr
  intro p hp
  have := fieldLess_ne (h p hp)
  simpa using fun hh => this hh.symm

theorem setField_filter (n : String) (v : Value) (l : List (String × Value))
    (h : l.Pairwise fun a b => fieldLess a.1 b.1 = true) :
    setField n v (l.filter fun p => p.1 ≠ n) = setField n v l := by
  induction l with
  | nil => rfl
  | cons e rest ih =>
    rw [List.pairwise_cons] at h
    by_cases h1 : n = e.1
    · have hgt : ∀ p ∈ rest, fieldLess n p.1 = true := fun p hp => by rw [h1]; exact h.1 p hp
      rw [setField_cons_eq n v e rest h1, List.filter_cons]
      simp only [ne_eq, h1, not_true_eq_false, decide_False, Bool.false_eq_true, if_false]
      rw [← h1, filter_ne_of_all_greater n rest hgt, setField_of_head_greater n v rest hgt]
    · have h1b : ¬ e.1 = n := fun hh => h1 hh.symm
      rw [List.filter_cons]
      simp only [ne_eq, h1b, not_false_eq_true, decide_True, if_true]
      cases h2 : fieldLess n e.1
      · rw [setField_cons_gt n v e _ h1 h2, setField_cons_gt n v e rest h1 h2, ih h.2]
      · have hgt : ∀ p ∈ rest, fieldLess n p.1 = true :=
          fun p hp => fieldLess_trans h2 (h.1 p hp)
        rw [setField_cons_lt n v e _ h1 h2, setField_cons_lt n v e rest h1 h2,
          filter_ne_of_all_greater n rest hgt]

theorem setField_back (n : String) (v v0 : Value) (name : String) (l : List (String × Value))
    (h : l.Pairwise fun a b => fieldLess a.1 b.1 = true)
    (hget : Struct.MaybeGet ⟨name, l⟩ n = some v0) :
    setField n v0 (setField n v l) = l := by
  induction l with
  | nil => simp [Struct.MaybeGet] at hget
  | cons e rest ih =>
    rw [List.pairwise_cons] at h
    rw [Struct.MaybeGet_field_cons] at hget
    by_cases h1 : n = e.1
    · rw [if_pos h1.symm] at hget
      injection hget with hget
      rw [setField_cons_eq n v e rest h1, setField_cons_eq n v0 (n, v) rest rfl, h1, ← hget]
    · rw [if_neg (fun hh => h1 hh.symm)] at hget
      cases h2 : fieldLess n e.1
      · rw [setField_cons_gt n v e rest h1 h2, setField_cons_gt n v0 e _ h1 h2, ih h.2 hget]
      · exfalso
        have hgt : ∀ p ∈ rest, p.1 ≠ n :=
          fun p hp hh => fieldLess_ne (fieldLess_trans h2 (h.1 p hp)) hh.symm
        have hnone : Struct.MaybeGet ⟨name, rest⟩ n = none := by
          unfold Struct.MaybeGet
          have : rest.find? (fun p => decide (p.1 = n)) = none := by
            apply List.find?_eq_none.mpr
            intro p hp
            simpa using hgt p hp
          simp [this]
        rw [hnone] at hget
        cases hget

theorem sortNames_of_ascending (names : List String)
    (h : names.Pairwise fun a b => fieldLess a b = true) : sortNames names = names := by
  induction names with
  | nil => rfl
  | cons a rest ih =>
    rw [List.pairwise_cons] at h
    show insertName a (sortNames rest) = a :: rest
    rw [ih h.2]
    cases rest with
    | nil => rfl
    | cons b r =>
      have hlt := h.1 b (List.mem_cons_self _ _)
      simp [insertName, fieldLess_ne hlt, hlt]

theorem filterMap_names (h : String → Option (String × Value)) (l : List (String × Value))
    (hl : ∀ p ∈ l, h p.1 = some p) : (l.map Prod.fst).filterMap h = l := by
  induction l with
  | nil => rfl
  | cons e rest ih =>
    rw [List.map_cons, List.filterMap_cons, hl e (List.mem_cons_self _ _)]
    simp only
    rw [ih (fun p hp => hl p (List.mem_cons_of_mem _ hp))]

theorem filterMap_insertName (f : String) (v : Value) (h : String → Option (String × Value))
    (l : List (String × Value)) (hf : h f = some (f, v))
    (hl : ∀ p ∈ l, p.1 ≠ f → h p.1 = some p)
    (hs : l.Pairwise fun a b => fieldLess a.1 b.1 = true) :
    (insertName f (l.map Prod.fst)).filterMap h = setField f v l := by
  induction l with
  | nil => simp [insertName, setField, hf]
  | cons e rest ih =>
    rw [List.pairwise_cons] at hs
    have hrest : ∀ p ∈ rest, p.1 ≠ f → h p.1 = some p :=
      fun p hp => hl p (List.mem_cons_of_mem _ hp)
    by_cases h1 : f = e.1
    · have hall : ∀ p ∈ rest, h p.1 = some p := fun p hp =>
        hrest p hp (fun hh => fieldLess_ne (hs.1 p hp) (h1.symm.trans hh.symm))
      rw [setField_cons_eq f v e rest h1, List.map_cons]
      simp only [insertName, h1, if_true, List.filterMap_cons]
      rw [← h1, hf]
      simp only
      rw [filterMap_names h rest hall]
    · have he : h e.1 = some e := hl e (List.mem_cons_self _ _) (fun hh => h1 hh.symm)
      cases h2 : fieldLess f e.1
      · rw [setField_cons_gt f v e rest h1 h2, List.map_cons]
        simp only [insertName, h1, h2, if_false, Bool.false_eq_true, List.filterMap_cons, he]
        rw [ih hrest hs.2]
      · have hall : ∀ p ∈ rest, h p.1 = some p := fun p hp =>
          hrest p hp (fun hh => fieldLess_ne (fieldLess_trans h2 (hs.1 p hp)) hh.symm)
        rw [setField_cons_lt f v e rest h1 h2, List.map_cons]
        simp only [insertName, h1, h2, if_true, if_false, List.filterMap_cons, hf, he]
        rw [filterMap_names h rest hall]

theorem get_toData_of_mem (l : List (String × Value))
    (hs : l.Pairwise fun a b => fieldLess a.1 b.1 = true) (p : String × Value) (hp : p ∈ l) :
    StructData.get (l.map fun q => (q.1, some q.2)) p.1 = some (some p.2) := by
  induction l with
  | nil => cases hp
  | cons e rest ih =>
    rw [List.pairwise_cons] at hs
    rcases List.mem_cons.mp hp with h | h
    · subst h
      simp [StructData.get]
    · have hne : ¬ e.1 = p.1 := fieldLess_ne (hs.1 p h)
      have := ih hs.2 h
      simp only [StructData.get, List.map_cons, List.find?_cons, hne, decide_False] at this ⊢
      exact this

theorem NewStruct_of_set (nbf : NomsBinFormat) (s : Struct) (f : String) (v : Value)
    (hs : s.WF) (hf : IsValidFieldName f = true) :
    NewStruct nbf s.name (StructData.set s.toData f (some v)) =
      .ok ⟨s.name, setField f v s.fields⟩ := by
  obtain ⟨hasc, hvalid⟩ := hs
  have hfilt : (s.fields.filter fun p => p.1 ≠ f).Pairwise
      (fun a b => fieldLess a.1 b.1 = true) := hasc.filter _
  have hdata : StructData.set s.toData f (some v) =
      (f, some v) :: (s.fields.filter fun p => p.1 ≠ f).map fun q => (q.1, some q.2) := by
    simp only [StructData.set, Struct.toData, List.filter_map]
    rfl
  have h1 : (StructData.set s.toData f (some v)).find? (fun p => p.2.isNone) = none := by
    rw [hdata]
    apply List.find?_eq_none.mpr
    intro x hx
    rcases List.mem_cons.mp hx with h | h
    · rw [h]; simp
    · obtain ⟨q, _, hq⟩ := List.mem_map.mp h
      rw [← hq]; simp
  have h2 : (StructData.set s.toData f (some v)).find? (fun p => !IsValidFieldName p.1) = none := by
    rw [hdata]
    apply List.find?_eq_none.mpr
    intro x hx
    rcases List.mem_cons.mp hx with h | h
    · rw [h]; simp [hf]
    · obtain ⟨q, hq1, hq⟩ := List.mem_map.mp h
      rw [← hq]
      simp [hvalid q (List.mem_of_mem_filter hq1)]
  have hnames : sortNames ((StructData.set s.toData f (some v)).map Prod.fst) =
      insertName f ((s.fields.filter fun p => p.1 ≠ f).map Prod.fst) := by
    rw [hdata]
    simp only [List.map_cons, List.map_map]
    show insertName f (sortNames _) = _
    have : (Prod.fst ∘ fun q : String × Value => (q.1, some q.2)) = Prod.fst := rfl
    rw [this, sortNames_of_ascending]
    exact (List.pairwise_map).mpr hfilt
  unfold NewStruct
  simp only [h1, h2]
  rw [hnames]
  congr 2
  rw [← setField_filter f v s.fields hasc]
  apply filterMap_insertName f v _ _ _ _ hfilt
  · rw [hdata]; simp [StructData.get]
  · intro p hp hne
    have hget := get_toData_of_mem _ hfilt p hp
    rw [hdata]
    have hne2 : ¬ f = p.1 := fun hh => hne hh.symm
    simp only [StructData.get, List.find?_cons, hne2, decide_False] at hget ⊢
    rw [hget]

theorem setField_valid (n : String) (v : Value) (l : List (String × Value))
    (hn : IsValidFieldName n = true) (hl : ∀ p ∈ l, IsValidFieldName p.1 = true) :
    ∀ p ∈ setField n v l, IsValidFieldName p.1 = true := by
  intro p hp
  rcases mem_setField n v l p hp with h | h
  · rw [h]; exact hn
  · exact hl p h

/-- C10. For a struct `s` (valid field names in ascending order), a valid field name `f` and a
bound value `v`: `s.Set(f, v)` is the struct constructed with the name of `s` and the fields
of `s` with `f` bound to `v`. On the result `MaybeGet(f)` returns `(v, true)`, every other
field has the binding it had in `s`, the fields are again in ascending order (a field added
between existing ones is at its sorted position), and setting `f` back to the value it had
in `s` gives a struct equal to `s`. -/
theorem Struct.Set_eq_constructed (nbf : NomsBinFormat) (s : Struct) (f : String) (v : Value)
    (hs : s.WF) (hf : IsValidFieldName f = true) :
    s.Set f (some v) = NewStruct nbf s.name (StructData.set s.toData f (some v)) ∧
    ∃ s2 : Struct, s.Set f (some v) = .ok s2 ∧
      s2.name = s.name ∧
      s2.MaybeGet f = some v ∧
      (∀ g, g ≠ f → s2.MaybeGet g = s.MaybeGet g) ∧
      s2.WF ∧
      (∀ v0, s.MaybeGet f = some v0 → s2.Set f (some v0) = .ok s) := by
  have hset : s.Set f (some v) = .ok ⟨s.name, setField f v s.fields⟩ := by
    simp [Struct.Set, hf]
  refine ⟨?_, ⟨s.name, setField f v s.fields⟩, hset, rfl, ?_, ?_, ?_, ?_⟩
  · rw [hset, NewStruct_of_set nbf s f v hs hf]
  · exact MaybeGet_setField_self _ _ _ _
  · intro g hg
    exact MaybeGet_setField_other _ _ _ _ _ hg
  · exact ⟨setField_ascending f v s.fields hs.1, setField_valid f v s.fields hf hs.2⟩
  · intro v0 hv0
    simp only [Struct.Set, hf, if_true]
    rw [setField_back f v v0 s.name s.fields hs.1 hv0]

theorem Struct.Set_eq_constructed_witness :
    structS8.WF ∧ IsValidFieldName "b" = true ∧
    structS8.Set "b" (some (.bool true)) =
      NewStruct Format_7_18 structS8.name
        (StructData.set structS8.toData "b" (some (.bool true))) ∧
    structS8.Set "b" (some (.bool true)) =
      .ok ⟨"S", [("a", .bool true), ("b", .bool true), ("c", .bool true)]⟩ ∧
    NewStruct Format_7_18 "S"
        [("c", some (.bool true)), ("a", some (.bool true)), ("b", some (.bool true))] =
      .ok ⟨"S", [("a", .bool true), ("b", .bool true), ("c", .bool true)]⟩ :=
  ⟨⟨by decide, by decide⟩, by decide,
   (Struct.Set_eq_constructed Format_7_18 structS8 "b" (.bool true)
      ⟨by decide, by decide⟩ (by decide)).1,
   rfl, rfl⟩

/-! ### Struct delete -/

theorem removeField_eq_filter (n : String) (l : List (String × Value))
    (h : l.Pairwise fun a b => fieldLess a.1 b.1 = true) :
    removeField n l = l.filter fun p => p.1 ≠ n := by
  induction l with
  | nil => rfl
  | cons e rest ih =>
    rw [List.pairwise_cons] at h
    by_cases h1 : n = e.1
    · have hgt : ∀ p ∈ rest, fieldLess n p.1 = true := fun p hp => by rw [h1]; exact h.1 p hp
      rw [List.filter_cons]
      simp only [removeField, h1, if_true, ne_eq, not_true_eq_false, decide_False,
        Bool.false_eq_true, if_false]
      rw [← h1, filter_ne_of_all_greater n rest hgt]
    · have h1b : ¬ e.1 = n := fun hh => h1 hh.symm
      rw [List.filter_cons]
      simp only [ne_eq, h1b, not_false_eq_true, decide_True, if_true]
      cases h2 : fieldLess n e.1
      · simp only [removeField, h1, h2, if_false, Bool.false_eq_true]
        rw [ih h.2]
      · have hgt : ∀ p ∈ rest, fieldLess n p.1 = true :=
          fun p hp => fieldLess_trans h2 (h.1 p hp)
        simp only [removeField, h1, h2, if_true, if_false]
        rw [filter_ne_of_all_greater n rest hgt]

theorem NewStruct_of_fields (nbf : NomsBinFormat) (name : String) (l : List (String × Value))
    (hasc : l.Pairwise fun a b => fieldLess a.1 b.1 = true)
    (hvalid : ∀ p ∈ l, IsValidFieldName p.1 = true) :
    NewStruct nbf name (l.map fun q => (q.1, some q.2)) = .ok ⟨name, l⟩ := by
  have h1 : (l.map fun q : String × Value => (q.1, some q.2)).find?
      (fun p => p.2.isNone) = none := by
    apply List.find?_eq_none.mpr
    intro x hx
    obtain ⟨q, _, hq⟩ := List.mem_map.mp hx
    rw [← hq]; simp
  have h2 : (l.map fun q : String × Value => (q.1, some q.2)).find?
      (fun p => !IsValidFieldName p.1) = none := by
    apply List.find?_eq_none.mpr
    intro x hx
    obtain ⟨q, hq1, hq⟩ := List.mem_map.mp hx
    rw [← hq]
    simp [hvalid q hq1]
  have hnames : sortNames ((l.map fun q : String × Value => (q.1, some q.2)).map Prod.fst) =
      l.map Prod.fst := by
    simp only [List.map_map]
    have : (Prod.fst ∘ fun q : String × Value => (q.1, some q.2)) = Prod.fst := rfl
    rw [this, sortNames_of_ascending]
    exact (List.pairwise_map).mpr hasc
  unfold NewStruct
  simp only [h1, h2]
  rw [hnames]
  congr 2
  apply filterMap_names
  intro p hp
  rw [get_toData_of_mem l hasc p hp]

theorem MaybeGet_filter_self (name n : String) (l : List (String × Value)) :
    Struct.MaybeGet ⟨name, l.filter fun p => p.1 ≠ n⟩ n = none := by
  unfold Struct.MaybeGet
  have : (l.filter fun p => p.1 ≠ n).find? (fun p => decide (p.1 = n)) = none := by
    apply List.find?_eq_none.mpr
    intro p hp
    have := (List.mem_filter.mp hp).2
    simpa using this
  rw [this]

theorem MaybeGet_filter_other (name n g : String) (l : List (String × Value)) (hg : g ≠ n) :
    Struct.MaybeGet ⟨name, l.filter fun p => p.1 ≠ n⟩ g = Struct.MaybeGet ⟨name, l⟩ g := by
  induction l with
  | nil => rfl
  | cons e rest ih =>
    rw [List.filter_cons]
    by_cases h1 : e.1 = n
    · have h2 : ¬ e.1 = g := fun hh => hg (hh.symm.trans h1)
      simp only [ne_eq, h1, not_true_eq_false, decide_False, Bool.false_eq_true, if_false]
      rw [Struct.MaybeGet_field_cons, if_neg h2]
      simpa [h1] using ih
    · simp only [ne_eq, h1, not_false_eq_true, decide_True, if_true]
      rw [Struct.MaybeGet_field_cons, Struct.MaybeGet_field_cons, ih]

theorem filter_ne_of_MaybeGet_none (name n : String) (l : List (String × Value))
    (h : Struct.MaybeGet ⟨name, l⟩ n = none) : l.filter (fun p => p.1 ≠ n) = l := by
  induction l with
  | nil => rfl
  | cons e rest ih =>
    rw [Struct.MaybeGet_field_cons] at h
    by_cases h1 : e.1 = n
    · rw [if_pos h1] at h; cases h
    · rw [if_neg h1] at h
      rw [List.filter_cons]
      simp only [ne_eq, h1, not_false_eq_true, decide_True, if_true]
      rw [ih h]

theorem DeleteAll_eq_filter (name : String) (names : List String) (l : List (String × Value))
    (h : l.Pairwise fun a b => fieldLess a.1 b.1 = true) :
    Struct.DeleteAll ⟨name, l⟩ names = .ok ⟨name, l.filter fun p => p.1 ∉ names⟩ := by
  induction names generalizing l with
  | nil => simp [Struct.DeleteAll]
  | cons n rest ih =>
    simp only [Struct.DeleteAll, Struct.Delete]
    rw [removeField_eq_filter n l h, ih _ (h.filter _), List.filter_filter]
    congr 2
    apply List.filter_congr
    intro p _
    by_cases hp : p.1 = n <;> simp [hp]

/-- C11. For a struct `s` (valid field names in ascending order) and every field name `f`:
`s.Delete(f)` is the struct constructed with the name of `s` and the fields of `s` without
`f`. On the result `MaybeGet(f)` reports not found and every other field has the binding it
had; deleting an absent field returns a struct equal to `s`; `Delete` is idempotent; and
deleting every field yields the struct with the same name and no fields. -/
theorem Struct.Delete_eq_constructed (nbf : NomsBinFormat) (s : Struct) (f : String)
    (hs : s.WF) :
    s.Delete f = NewStruct nbf s.name (StructData.remove s.toData f) ∧
    ∃ s2 : Struct, s.Delete f = .ok s2 ∧
      s2.name = s.name ∧
      s2.MaybeGet f = none ∧
      (∀ g, g ≠ f → s2.MaybeGet g = s.MaybeGet g) ∧
      s2.WF ∧
      (s.MaybeGet f = none → s2 = s) ∧
      s2.Delete f = .ok s2 ∧
      s.DeleteAll (s.fields.map Prod.fst) = .ok ⟨s.name, []⟩ := by
  obtain ⟨hasc, hvalid⟩ := hs
  have hdel : s.Delete f = .ok ⟨s.name, s.fields.filter fun p => p.1 ≠ f⟩ := by
    simp only [Struct.Delete]
    rw [removeField_eq_filter f s.fields hasc]
  have hfasc : (s.fields.filter fun p => p.1 ≠ f).Pairwise
      (fun a b => fieldLess a.1 b.1 = true) := hasc.filter _
  have hfvalid : ∀ p ∈ s.fields.filter (fun p => p.1 ≠ f), IsValidFieldName p.1 = true :=
    fun p hp => hvalid p (List.mem_of_mem_filter hp)
  refine ⟨?_, ⟨s.name, s.fields.filter fun p => p.1 ≠ f⟩, hdel, rfl, ?_, ?_, ⟨hfasc, hfvalid⟩,
    ?_, ?_, ?_⟩
  · rw [hdel]
    have hdata : StructData.remove s.toData f =
        (s.fields.filter fun p => p.1 ≠ f).map fun q => (q.1, some q.2) := by
      simp only [StructData.remove, Struct.toData, List.filter_map]
      rfl
    rw [hdata, NewStruct_of_fields nbf s.name _ hfasc hfvalid]
  · exact MaybeGet_filter_self _ _ _
  · intro g hg
    exact MaybeGet_filter_other _ _ _ _ hg
  · intro hnone
    rw [filter_ne_of_MaybeGet_none s.name f s.fields hnone]
  · simp only [Struct.Delete]
    rw [removeField_eq_filter f _ hfasc, List.filter_filter]
    simp
  · have h := DeleteAll_eq_filter s.name (s.fields.map Prod.fst) s.fields hasc
    have hnil : s.fields.filter (fun p => p.1 ∉ s.fields.map Prod.fst) = [] := by
      apply List.filter_eq_nil_iff.mpr
      intro p hp
      simpa using ⟨p.2, hp⟩
    rw [hnil] at h
    exact h

theorem Struct.Delete_eq_constructed_witness :
    structS1.WF ∧
    structS1.Delete "o" =
      NewStruct Format_7_18 structS1.name (StructData.remove structS1.toData "o") ∧
    structS1.Delete "o" = .ok ⟨"S", [("b", .bool true)]⟩ ∧
    NewStruct Format_7_18 "S" [("b", some (.bool true))] = .ok ⟨"S", [("b", .bool true)]⟩ ∧
    structS1.Delete "notThere" = .ok structS1 ∧
    structS1.DeleteAll ["b", "o"] = .ok ⟨"S", []⟩ ∧
    NewStruct Format_7_18 "S" [] = .ok ⟨"S", []⟩ :=
  ⟨⟨by decide, by decide⟩,
   (Struct.Delete_eq_constructed Format_7_18 structS1 "o" ⟨by decide, by decide⟩).1,
   rfl, rfl, rfl, rfl, rfl⟩

/-! ### Struct diff -/

theorem isChange_nil_left (ls : List (String × Value)) (vc : ValueChanged) :
    vc ∈ ls.map removedOf ↔ IsChange [] ls vc := by
  simp only [IsChange, List.mem_map, List.not_mem_nil, false_and, exists_false, false_or,
    or_false, IsEmpty.forall_iff, implies_true, true_and]
  constructor
  · rintro ⟨l, hl, rfl⟩; exact ⟨l, hl, rfl⟩
  · rintro ⟨l, hl, rfl⟩; exact ⟨l, hl, rfl⟩

theorem isChange_nil_right (c : String × Value) (cs : List (String × Value))
    (vc : ValueChanged) :
    (vc = addedOf c ∨ IsChange cs [] vc) ↔ IsChange (c :: cs) [] vc := by
  simp only [IsChange, List.not_mem_nil, false_and, exists_false, and_false, or_false,
    IsEmpty.forall_iff, implies_true, true_and, List.mem_cons, exists_eq_or_imp]

theorem isChange_cons_eq (c l : String × Value) (cs ls : List (String × Value))
    (hcs : (c :: cs).Pairwise fun a b => fieldLess a.1 b.1 = true)
    (hls : (l :: ls).Pairwise fun a b => fieldLess a.1 b.1 = true)
    (h : c.1 = l.1) (vc : ValueChanged) :
    IsChange (c :: cs) (l :: ls) vc ↔
      ((c.2 ≠ l.2 ∧ vc = modifiedOf l c) ∨ IsChange cs ls vc) := by
  rw [List.pairwise_cons] at hcs hls
  have hc : ∀ x ∈ cs, x.1 ≠ l.1 := fun x hx hh =>
    fieldLess_ne (hcs.1 x hx) (h.trans hh.symm)
  have hl : ∀ x ∈ ls, x.1 ≠ c.1 := fun x hx hh =>
    fieldLess_ne (hls.1 x hx) (h.symm.trans hh.symm)
  unfold IsChange
  constructor
  · rintro (⟨x, hx, hno, rfl⟩ | ⟨x, hx, hno, rfl⟩ | ⟨x, hx, y, hy, hxy, hne, rfl⟩)
    · rcases List.mem_cons.mp hx with rfl | hx
      · exact absurd h.symm (hno l (List.mem_cons_self _ _))
      · exact Or.inr (Or.inl ⟨x, hx, fun y hy => hno y (List.mem_cons_of_mem _ hy), rfl⟩)
    · rcases List.mem_cons.mp hx with rfl | hx
      · exact absurd h (hno c (List.mem_cons_self _ _))
      · exact Or.inr (Or.inr (Or.inl ⟨x, hx, fun y hy => hno y (List.mem_cons_of_mem _ hy), rfl⟩))
    · rcases List.mem_cons.mp hx with rfl | hx
      · rcases List.mem_cons.mp hy with rfl | hy
        · exact Or.inl ⟨hne, rfl⟩
        · exact absurd hxy.symm (hl y hy)
      · rcases List.mem_cons.mp hy with rfl | hy
        · exact absurd hxy (hc x hx)
        · exact Or.inr (Or.inr (Or.inr ⟨x, hx, y, hy, hxy, hne, rfl⟩))
  · rintro (⟨hne, rfl⟩ | ⟨x, hx, hno, rfl⟩ | ⟨x, hx, hno, rfl⟩ | ⟨x, hx, y, hy, hxy, hne, rfl⟩)
    · exact Or.inr (Or.inr ⟨c, List.mem_cons_self _ _, l, List.mem_cons_self _ _, h, hne, rfl⟩)
    · refine Or.inl ⟨x, List.mem_cons_of_mem _ hx, ?_, rfl⟩
      intro y hy
      rcases List.mem_cons.mp hy with rfl | hy
      · exact fun hh => hc x hx hh.symm
      · exact hno y hy
    · refine Or.inr (Or.inl ⟨x, List.mem_cons_of_mem _ hx, ?_, rfl⟩)
      intro y hy
      rcases List.mem_cons.mp hy with rfl | hy
      · exact fun hh => hl x hx hh.symm
      · exact hno y hy
    · exact Or.inr (Or.inr ⟨x, List.mem_cons_of_mem _ hx, y, List.mem_cons_of_mem _ hy,
        hxy, hne, rfl⟩)

theorem isChange_cons_lt (c l : String × Value) (cs ls : List (String × Value))
    (hls : (l :: ls).Pairwise fun a b => fieldLess a.1 b.1 = true)
    (h : fieldLess c.1 l.1 = true) (vc : ValueChanged) :
    IsChange (c :: cs) (l :: ls) vc ↔ (vc = addedOf c ∨ IsChange cs (l :: ls) vc) := by
  rw [List.pairwise_cons] at hls
  have hl : ∀ x ∈ l :: ls, x.1 ≠ c.1 := by
    intro x hx hh
    rcases List.mem_cons.mp hx with rfl | hx
    · exact fieldLess_ne h hh.symm
    · exact fieldLess_ne (fieldLess_trans h (hls.1 x hx)) hh.symm
  unfold IsChange
  constructor
  · rintro (⟨x, hx, hno, rfl⟩ | ⟨x, hx, hno, rfl⟩ | ⟨x, hx, y, hy, hxy, hne, rfl⟩)
    · rcases List.mem_cons.mp hx with rfl | hx
      · exact Or.inl rfl
      · exact Or.inr (Or.inl ⟨x, hx, hno, rfl⟩)
    · exact Or.inr (Or.inr (Or.inl ⟨x, hx, fun y hy => hno y (List.mem_cons_of_mem _ hy), rfl⟩))
    · rcases List.mem_cons.mp hx with rfl | hx
      · exact absurd hxy.symm (hl y hy)
      · exact Or.inr (Or.inr (Or.inr ⟨x, hx, y, hy, hxy, hne, rfl⟩))
  · rintro (rfl | ⟨x, hx, hno, rfl⟩ | ⟨x, hx, hno, rfl⟩ | ⟨x, hx, y, hy, hxy, hne, rfl⟩)
    · exact Or.inl ⟨c, List.mem_cons_self _ _, hl, rfl⟩
    · exact Or.inl ⟨x, List.mem_cons_of_mem _ hx, hno, rfl⟩
    · refine Or.inr (Or.inl ⟨x, hx, ?_, rfl⟩)
      intro y hy
      rcases List.mem_cons.mp hy with rfl | hy
      · exact fun hh => hl x hx hh.symm
      · exact hno y hy
    · exact Or.inr (Or.inr ⟨x, List.mem_cons_of_mem _ hx, y, hy, hxy, hne, rfl⟩)

theorem isChange_cons_gt (c l : String × Value) (cs ls : List (String × Value))
    (hcs : (c :: cs).Pairwise fun a b => fieldLess a.1 b.1 = true)
    (h : fieldLess l.1 c.1 = true) (vc : ValueChanged) :
    IsChange (c :: cs) (l :: ls) vc ↔ (vc = removedOf l ∨ IsChange (c :: cs) ls vc) := by
  rw [List.pairwise_cons] at hcs
  have hc : ∀ x ∈ c :: cs, x.1 ≠ l.1 := by
    intro x hx hh
    rcases List.mem_cons.mp hx with rfl | hx
    · exact fieldLess_ne h hh.symm
    · exact fieldLess_ne (fieldLess_trans h (hcs.1 x hx)) hh.symm
  unfold IsChange
  constructor
  · rintro (⟨x, hx, hno, rfl⟩ | ⟨x, hx, hno, rfl⟩ | ⟨x, hx, y, hy, hxy, hne, rfl⟩)
    · exact Or.inr (Or.inl ⟨x, hx, fun y hy => hno y (List.mem_cons_of_mem _ hy), rfl⟩)
    · rcases List.mem_cons.mp hx with rfl | hx
      · exact Or.inl rfl
      · exact Or.inr (Or.inr (Or.inl ⟨x, hx, hno, rfl⟩))
    · rcases List.mem_cons.mp hy with rfl | hy
      · exact absurd hxy (hc x hx)
      · exact Or.inr (Or.inr (Or.inr ⟨x, hx, y, hy, hxy, hne, rfl⟩))
  · rintro (rfl | ⟨x, hx, hno, rfl⟩ | ⟨x, hx, hno, rfl⟩ | ⟨x, hx, y, hy, hxy, hne, rfl⟩)
    · exact Or.inr (Or.inl ⟨l, List.mem_cons_self _ _, hc, rfl⟩)
    · refine Or.inl ⟨x, hx, ?_, rfl⟩
      intro y hy
      rcases List.mem_cons.mp hy with rfl | hy
      · exact fun hh => hc x hx hh.symm
      · exact hno y hy
    · exact Or.inr (Or.inl ⟨x, List.mem_cons_of_mem _ hx, hno, rfl⟩)
    · exact Or.inr (Or.inr ⟨x, hx, y, List.mem_cons_of_mem _ hy, hxy, hne, rfl⟩)

theorem mem_diffOne (c : String × Value) (cs : List (String × Value))
    (k : List (String × Value) → List ValueChanged)
    (hcs : (c :: cs).Pairwise fun a b => fieldLess a.1 b.1 = true)
    (hk : ∀ ls : List (String × Value), (ls.Pairwise fun a b => fieldLess a.1 b.1 = true) →
      ∀ vc, vc ∈ k ls ↔ IsChange cs ls vc)
    (ls : List (String × Value)) (hls : ls.Pairwise fun a b => fieldLess a.1 b.1 = true)
    (vc : ValueChanged) :
    vc ∈ diffOne c k ls ↔ IsChange (c :: cs) ls vc := by
  induction ls with
  | nil =>
    rw [← isChange_nil_right, ← hk [] List.Pairwise.nil]
    simp [diffOne]
  | cons l ls ih =>
    have hls2 : ls.Pairwise fun a b => fieldLess a.1 b.1 = true := (List.pairwise_cons.mp hls).2
    by_cases h1 : c.1 = l.1
    · rw [isChange_cons_eq c l cs ls hcs hls h1, ← hk ls hls2]
      by_cases h2 : c.2 = l.2
      · simp [diffOne, h1, h2]
      · simp [diffOne, h1, h2]
    · cases h3 : fieldLess c.1 l.1
      · have hgt : fieldLess l.1 c.1 = true := fieldLess_total h3 h1
        rw [isChange_cons_gt c l cs ls hcs hgt, ← ih hls2]
        simp [diffOne, h1, h3]
      · rw [isChange_cons_lt c l cs ls hls h3, ← hk (l :: ls) hls]
        simp [diffOne, h1, h3]

theorem mem_diffFields (cs ls : List (String × Value))
    (hcs : cs.Pairwise fun a b => fieldLess a.1 b.1 = true)
    (hls : ls.Pairwise fun a b => fieldLess a.1 b.1 = true) (vc : ValueChanged) :
    vc ∈ diffFields cs ls ↔ IsChange cs ls vc := by
  revert ls vc
  induction cs with
  | nil => exact fun ls _ vc => isChange_nil_left ls vc
  | cons c cs ih =>
    intro ls hls vc
    have hcs2 : cs.Pairwise fun a b => fieldLess a.1 b.1 = true := (List.pairwise_cons.mp hcs).2
    exact mem_diffOne c cs (diffFields cs) hcs (fun ls2 h2 vc2 => ih hcs2 ls2 h2 vc2) ls hls vc

theorem key_gt_of_isChange (n : String) (cs ls : List (String × Value))
    (hc : ∀ x ∈ cs, fieldLess n x.1 = true) (hl : ∀ x ∈ ls, fieldLess n x.1 = true)
    (vc : ValueChanged) (h : IsChange cs ls vc) : fieldLess n vc.Key = true := by
  rcases h with ⟨x, hx, _, rfl⟩ | ⟨x, hx, _, rfl⟩ | ⟨x, hx, y, _, _, _, rfl⟩
  · exact hc x hx
  · exact hl x hx
  · exact hc x hx

theorem diffOne_ascending (c : String × Value) (cs : List (String × Value))
    (k : List (String × Value) → List ValueChanged)
    (hcs : (c :: cs).Pairwise fun a b => fieldLess a.1 b.1 = true)
    (hk : ∀ ls : List (String × Value), (ls.Pairwise fun a b => fieldLess a.1 b.1 = true) →
      ∀ vc, vc ∈ k ls ↔ IsChange cs ls vc)
    (hka : ∀ ls : List (String × Value), (ls.Pairwise fun a b => fieldLess a.1 b.1 = true) →
      (k ls).Pairwise fun x y => fieldLess x.Key y.Key = true)
    (ls : List (String × Value)) (hls : ls.Pairwise fun a b => fieldLess a.1 b.1 = true) :
    (diffOne c k ls).Pairwise fun x y => fieldLess x.Key y.Key = true := by
  have hc1 : ∀ x ∈ cs, fieldLess c.1 x.1 = true := (List.pairwise_cons.mp hcs).1
  induction ls with
  | nil =>
    simp only [diffOne, List.pairwise_cons]
    refine ⟨?_, hka [] List.Pairwise.nil⟩
    intro vc hvc
    exact key_gt_of_isChange c.1 cs [] hc1 (by simp) vc ((hk [] List.Pairwise.nil vc).mp hvc)
  | cons l ls ih =>
    have hls1 : ∀ x ∈ ls, fieldLess l.1 x.1 = true := (List.pairwise_cons.mp hls).1
    have hls2 : ls.Pairwise fun a b => fieldLess a.1 b.1 = true := (List.pairwise_cons.mp hls).2
    by_cases h1 : c.1 = l.1
    · have hrest : ∀ vc ∈ k ls, fieldLess c.1 vc.Key = true := fun vc hvc =>
        key_gt_of_isChange c.1 cs ls hc1 (fun x hx => by rw [h1]; exact hls1 x hx) vc
          ((hk ls hls2 vc).mp hvc)
      by_cases h2 : c.2 = l.2
      · simp only [diffOne, h1, h2, if_true]
        exact hka ls hls2
      · simp only [diffOne, h1, h2, if_true, if_false, List.pairwise_cons]
        refine ⟨?_, hka ls hls2⟩
        intro vc hvc
        have := hrest vc hvc
        simpa [modifiedOf, h1] using this
    · cases h3 : fieldLess c.1 l.1
      · have hgt : fieldLess l.1 c.1 = true := fieldLess_total h3 h1
        simp only [diffOne, h1, h3, if_false, Bool.false_eq_true, List.pairwise_cons]
        refine ⟨?_, ih hls2⟩
        intro vc hvc
        have hmem := (mem_diffOne c cs k hcs hk ls hls2 vc).mp hvc
        refine key_gt_of_isChange l.1 (c :: cs) ls ?_ hls1 vc hmem
        intro x hx
        rcases List.mem_cons.mp hx with rfl | hx
        · exact hgt
        · exact fieldLess_trans hgt (hc1 x hx)
      · simp only [diffOne, h1, h3, if_true, if_false, List.pairwise_cons]
        refine ⟨?_, hka (l :: ls) hls⟩
        intro vc hvc
        have hmem := (hk (l :: ls) hls vc).mp hvc
        refine key_gt_of_isChange c.1 cs (l :: ls) hc1 ?_ vc hmem
        intro x hx
        rcases List.mem_cons.mp hx with rfl | hx
        · exact h3
        · exact fieldLess_trans h3 (hls1 x hx)

theorem diffFields_ascending (cs ls : List (String × Value))
    (hcs : cs.Pairwise fun a b => fieldLess a.1 b.1 = true)
    (hls : ls.Pairwise fun a b => fieldLess a.1 b.1 = true) :
    (diffFields cs ls).Pairwise fun x y => fieldLess x.Key y.Key = true := by
  revert ls
  induction cs with
  | nil =>
    intro ls hls
    show (ls.map removedOf).Pairwise _
    exact (List.pairwise_map).mpr hls
  | cons c cs ih =>
    intro ls hls
    have hcs2 : cs.Pairwise fun a b => fieldLess a.1 b.1 = true := (List.pairwise_cons.mp hcs).2
    exact diffOne_ascending c cs (diffFields cs) hcs
      (fun ls2 h2 vc2 => mem_diffFields cs ls2 hcs2 h2 vc2) (fun ls2 h2 => ih hcs2 ls2 h2) ls hls

theorem MaybeGet_eq_some_of_mem (name : String) (l : List (String × Value))
    (hs : l.Pairwise fun a b => fieldLess a.1 b.1 = true) (p : String × Value) (hp : p ∈ l) :
    Struct.MaybeGet ⟨name, l⟩ p.1 = some p.2 := by
  induction l with
  | nil => cases hp
  | cons e rest ih =>
    rw [List.pairwise_cons] at hs
    rw [Struct.MaybeGet_field_cons]
    rcases List.mem_cons.mp hp with h | h
    · subst h; simp
    · rw [if_neg (fieldLess_ne (hs.1 p h)), ih hs.2 h]

theorem mem_of_MaybeGet_eq_some (name : String) (l : List (String × Value)) (n : String)
    (v : Value) (h : Struct.MaybeGet ⟨name, l⟩ n = some v) : (n, v) ∈ l := by
  induction l with
  | nil => simp [Struct.MaybeGet] at h
  | cons e rest ih =>
    rw [Struct.MaybeGet_field_cons] at h
    by_cases h1 : e.1 = n
    · rw [if_pos h1] at h
      injection h with h
      have : e = (n, v) := Prod.ext h1 h
      rw [this]; exact List.mem_cons_self _ _
    · rw [if_neg h1] at h
      exact List.mem_cons_of_mem _ (ih h)

theorem MaybeGet_field_none_iff (name : String) (l : List (String × Value)) (n : String) :
    Struct.MaybeGet ⟨name, l⟩ n = none ↔ ∀ p ∈ l, p.1 ≠ n := by
  induction l with
  | nil => simp [Struct.MaybeGet]
  | cons e rest ih =>
    rw [Struct.MaybeGet_field_cons]
    by_cases h : e.1 = n
    · simp [h]
    · simp [h, ih]

/-- C12. For structs `cur` (the receiver, `b`) and `last` (the argument, `a`), `cur.Diff(last)`
emits exactly the changes of the fields whose binding differs: Added with (old nil, new the
value in `cur`) for a name only in `cur`, Removed with (old the value in `last`, new nil) for
a name only in `last`, Modified with (old the value in `last`, new the value in `cur`) for a
name in both with unequal values, and nothing else. The changes come in strictly ascending
field-name order, so there is one per name. Fields with equal values and the struct names
produce no change: when the fields are equal the sequence is empty. -/
theorem Struct.Diff_changes (cur last : Struct) (hc : cur.WF) (hl : last.WF) :
    (∀ vc, vc ∈ cur.Diff last ↔
      ((∃ n c, cur.MaybeGet n = some c ∧ last.MaybeGet n = none ∧
          vc = ⟨.DiffChangeAdded, n, none, some c⟩) ∨
       (∃ n l, cur.MaybeGet n = none ∧ last.MaybeGet n = some l ∧
          vc = ⟨.DiffChangeRemoved, n, some l, none⟩) ∨
       (∃ n l c, cur.MaybeGet n = some c ∧ last.MaybeGet n = some l ∧ c ≠ l ∧
          vc = ⟨.DiffChangeModified, n, some l, some c⟩))) ∧
    (cur.Diff last).Pairwise (fun x y => fieldLess x.Key y.Key = true) ∧
    (cur.fields = last.fields → cur.Diff last = []) := by
  have hmem : ∀ vc, vc ∈ cur.Diff last ↔
      ((∃ n c, cur.MaybeGet n = some c ∧ last.MaybeGet n = none ∧
          vc = ⟨.DiffChangeAdded, n, none, some c⟩) ∨
       (∃ n l, cur.MaybeGet n = none ∧ last.MaybeGet n = some l ∧
          vc = ⟨.DiffChangeRemoved, n, some l, none⟩) ∨
       (∃ n l c, cur.MaybeGet n = some c ∧ last.MaybeGet n = some l ∧ c ≠ l ∧
          vc = ⟨.DiffChangeModified, n, some l, some c⟩)) := by
    intro vc
    unfold Struct.Diff
    rw [mem_diffFields cur.fields last.fields hc.1 hl.1 vc]
    unfold IsChange
    constructor
    · rintro (⟨x, hx, hno, rfl⟩ | ⟨x, hx, hno, rfl⟩ | ⟨x, hx, y, hy, hxy, hne, rfl⟩)
      · exact Or.inl ⟨x.1, x.2, MaybeGet_eq_some_of_mem cur.name cur.fields hc.1 x hx,
          (MaybeGet_field_none_iff last.name last.fields x.1).mpr hno, rfl⟩
      · exact Or.inr (Or.inl ⟨x.1, x.2,
          (MaybeGet_field_none_iff cur.name cur.fields x.1).mpr hno,
          MaybeGet_eq_some_of_mem last.name last.fields hl.1 x hx, rfl⟩)
      · refine Or.inr (Or.inr ⟨x.1, y.2, x.2,
          MaybeGet_eq_some_of_mem cur.name cur.fields hc.1 x hx, ?_, hne, rfl⟩)
        rw [hxy]
        exact MaybeGet_eq_some_of_mem last.name last.fields hl.1 y hy
    · rintro (⟨n, c, h1, h2, rfl⟩ | ⟨n, l, h1, h2, rfl⟩ | ⟨n, l, c, h1, h2, hne, rfl⟩)
      · exact Or.inl ⟨(n, c), mem_of_MaybeGet_eq_some cur.name cur.fields n c h1,
          (MaybeGet_field_none_iff last.name last.fields n).mp h2, rfl⟩
      · exact Or.inr (Or.inl ⟨(n, l), mem_of_MaybeGet_eq_some last.name last.fields n l h2,
          (MaybeGet_field_none_iff cur.name cur.fields n).mp h1, rfl⟩)
      · exact Or.inr (Or.inr ⟨(n, c), mem_of_MaybeGet_eq_some cur.name cur.fields n c h1,
          (n, l), mem_of_MaybeGet_eq_some last.name last.fields n l h2, rfl, hne, rfl⟩)
  refine ⟨hmem, diffFields_ascending cur.fields last.fields hc.1 hl.1, ?_⟩
  intro heq
  apply List.eq_nil_iff_forall_not_mem.mpr
  intro vc hvc
  have hget : ∀ n, cur.MaybeGet n = last.MaybeGet n := by
    intro n
    unfold Struct.MaybeGet
    rw [heq]
  rcases (hmem vc).mp hvc with ⟨n, c, h1, h2, _⟩ | ⟨n, l, h1, h2, _⟩ | ⟨n, l, c, h1, h2, hne, _⟩
  · rw [hget n, h2] at h1; cases h1
  · rw [hget n, h2] at h1; cases h1
  · rw [hget n, h2] at h1
    injection h1 with h1
    exact hne h1.symm

theorem Struct.Diff_changes_witness :
    structDiff1.WF ∧ structDiff2.WF ∧
    structDiff1.Diff structDiff2 =
      [⟨.DiffChangeModified, "a", some (.bool false), some (.bool true)⟩,
       ⟨.DiffChangeModified, "b", some (.str "bye"), some (.str "hi")⟩] ∧
    structDiff1.Diff structDiff3 =
      [⟨.DiffChangeAdded, "b", none, some (.str "hi")⟩,
       ⟨.DiffChangeRemoved, "d", some (.int 5), none⟩] ∧
    (structDiff1.Diff structDiff2).Pairwise (fun x y => fieldLess x.Key y.Key = true) ∧
    ((⟨.DiffChangeModified, "a", some (.bool false), some (.bool true)⟩ : ValueChanged) ∈
      structDiff1.Diff structDiff2 ↔
      ((∃ n c, structDiff1.MaybeGet n = some c ∧ structDiff2.MaybeGet n = none ∧
          (⟨.DiffChangeModified, "a", some (.bool false), some (.bool true)⟩ : ValueChanged) =
            ⟨.DiffChangeAdded, n, none, some c⟩) ∨
       (∃ n l, structDiff1.MaybeGet n = none ∧ structDiff2.MaybeGet n = some l ∧
          (⟨.DiffChangeModified, "a", some (.bool false), some (.bool true)⟩ : ValueChanged) =
            ⟨.DiffChangeRemoved, n, some l, none⟩) ∨
       (∃ n l c, structDiff1.MaybeGet n = some c ∧ structDiff2.MaybeGet n = some l ∧ c ≠ l ∧
          (⟨.DiffChangeModified, "a", some (.bool false), some (.bool true)⟩ : ValueChanged) =
            ⟨.DiffChangeModified, n, some l, some c⟩))) :=
  ⟨⟨by decide, by decide⟩, ⟨by decide, by decide⟩, by decide, by decide,
   (Struct.Diff_changes structDiff1 structDiff2 ⟨by decide, by decide⟩
      ⟨by decide, by decide⟩).2.1,
   (Struct.Diff_changes structDiff1 structDiff2 ⟨by decide, by decide⟩
      ⟨by decide, by decide⟩).1 _⟩

/-! ### Field-name escaping -/

theorem hexVal_hexDigit (d : Nat) (h : d < 16) : hexVal (hexDigit d) = d := by
  interval_cases d <;> rfl

theorem readByte_hexBytes (b : Nat) (bs : List Nat) (rest : List Char) (h : b < 256) :
    readByte (hexBytes (b :: bs) ++ rest) = some (b, hexBytes bs ++ rest) := by
  have h1 : b / 16 < 16 := by omega
  have h2 : b % 16 < 16 := by omega
  simp only [hexBytes, List.cons_append, readByte, hexVal_hexDigit _ h1, hexVal_hexDigit _ h2]
  congr 2
  omega

theorem Char.toNat_lt_max (c : Char) : c.toNat < 1114112 := by
  have h := c.valid
  simp only [UInt32.isValidChar, Nat.isValidChar] at h
  have : c.toNat = c.val.toNat := rfl
  omega

theorem decodeRune_escape (c : Char) (rest : List Char) :
    decodeRune (hexBytes (utf8Bytes c.toNat) ++ rest) = some (c, rest) := by
  have hmax := Char.toNat_lt_max c
  unfold utf8Bytes
  by_cases h1 : c.toNat < 128
  · simp only [h1, if_true, decodeRune]
    rw [readByte_hexBytes _ _ _ (by omega)]
    simp [h1, hexBytes]
  · by_cases h2 : c.toNat < 2048
    · simp only [h1, h2, if_true, if_false, decodeRune]
      rw [readByte_hexBytes _ _ _ (by omega)]
      simp only
      rw [readByte_hexBytes _ _ _ (by omega)]
      have e1 : ¬ (192 + c.toNat / 64 < 128) := by omega
      have e2 : 192 + c.toNat / 64 < 224 := by omega
      have e3 : c.toNat / 64 * 64 + c.toNat % 64 = c.toNat := by omega
      simp [e1, e2, e3, hexBytes]
    · by_cases h3 : c.toNat < 65536
      · simp only [h1, h2, h3, if_true, if_false, decodeRune]
        rw [readByte_hexBytes _ _ _ (by omega)]
        simp only
        rw [readByte_hexBytes _ _ _ (by omega)]
        simp only
        rw [readByte_hexBytes _ _ _ (by omega)]
        have e1 : ¬ (224 + c.toNat / 4096 < 128) := by omega
        have e2 : ¬ (224 + c.toNat / 4096 < 224) := by omega
        have e4 : 224 + c.toNat / 4096 < 240 := by omega
        have e3 : c.toNat / 4096 * 4096 + c.toNat / 64 % 64 * 64 + c.toNat % 64 =
            c.toNat := by omega
        simp [e1, e2, e3, e4, hexBytes]
      · simp only [h1, h2, h3, if_false, decodeRune]
        rw [readByte_hexBytes _ _ _ (by omega)]
        simp only
        rw [readByte_hexBytes _ _ _ (by omega)]
        simp only
        rw [readByte_hexBytes _ _ _ (by omega)]
        simp only
        rw [readByte_hexBytes _ _ _ (by omega)]
        have e1 : ¬ (240 + c.toNat / 262144 < 128) := by omega
        have e2 : ¬ (240 + c.toNat / 262144 < 224) := by omega
        have e4 : ¬ (240 + c.toNat / 262144 < 240) := by omega
        have e3 : c.toNat / 262144 * 262144 + c.toNat / 4096 % 64 * 4096 +
            c.toNat / 64 % 64 * 64 + c.toNat % 64 = c.toNat := by omega
        simp [e1, e2, e3, e4, hexBytes]

theorem escapeRune_literal (allowed : Char → Bool) (c : Char)
    (h : allowed c = true ∧ c ≠ 'Q') : escapeRune allowed c = [c] := by
  simp [escapeRune, h.1, h.2]

theorem escapeRune_escaped (allowed : Char → Bool) (c : Char)
    (h : ¬ (allowed c = true ∧ c ≠ 'Q')) :
    escapeRune allowed c = 'Q' :: hexBytes (utf8Bytes c.toNat) := by
  unfold escapeRune
  have : (allowed c && c != 'Q') = false := by
    by_cases ha : allowed c = true
    · have hq : c = 'Q' := by
        by_contra hne
        exact h ⟨ha, hne⟩
      simp [hq]
    · simp [ha]
  rw [this]
  rfl

theorem unescapeOne_escapeRune (allowed : Char → Bool) (c : Char) (rest : List Char) :
    unescapeOne (escapeRune allowed c ++ rest) = some (c, rest) := by
  by_cases h : allowed c = true ∧ c ≠ 'Q'
  · rw [escapeRune_literal allowed c h]
    simp [unescapeOne, h.2]
  · rw [escapeRune_escaped allowed c h]
    simp only [List.cons_append, unescapeOne, if_true]
    exact decodeRune_escape c rest

theorem utf8Bytes_length_pos (n : Nat) : 0 < (utf8Bytes n).length := by
  unfold utf8Bytes
  split
  · simp
  · split
    · simp
    · split <;> simp

theorem hexBytes_length (bs : List Nat) : (hexBytes bs).length = 2 * bs.length := by
  induction bs with
  | nil => rfl
  | cons b bs ih => simp only [hexBytes, List.length_cons, ih]; omega

theorem escapeRune_length (allowed : Char → Bool) (c : Char) :
    ((allowed c = true ∧ c ≠ 'Q') ∧ (escapeRune allowed c).length = 1) ∨
    (¬ (allowed c = true ∧ c ≠ 'Q') ∧ 3 ≤ (escapeRune allowed c).length) := by
  by_cases h : allowed c = true ∧ c ≠ 'Q'
  · exact Or.inl ⟨h, by rw [escapeRune_literal allowed c h]; rfl⟩
  · refine Or.inr ⟨h, ?_⟩
    rw [escapeRune_escaped allowed c h, List.length_cons, hexBytes_length]
    have := utf8Bytes_length_pos c.toNat
    omega

theorem escapeRune_length_pos (allowed : Char → Bool) (c : Char) :
    1 ≤ (escapeRune allowed c).length := by
  rcases escapeRune_length allowed c with ⟨_, h⟩ | ⟨_, h⟩ <;> omega

theorem unescapeFuel_escapeTail (cs : List Char) (fuel : Nat)
    (h : (escapeTail cs).length ≤ fuel) : unescapeFuel fuel (escapeTail cs) = cs := by
  induction cs generalizing fuel with
  | nil =>
    cases fuel with
    | zero => rfl
    | succ f => simp [escapeTail, unescapeFuel, unescapeOne]
  | cons c cs ih =>
    have hpos := escapeRune_length_pos isFieldNameRest c
    simp only [escapeTail, List.length_append] at h
    cases fuel with
    | zero => omega
    | succ f =>
      simp only [escapeTail, unescapeFuel, unescapeOne_escapeRune]
      rw [ih f (by omega)]

theorem Unescape_Escape (n : String) : UnescapeStructField (EscapeStructField n) = n := by
  obtain ⟨l⟩ := n
  cases l with
  | nil => rfl
  | cons c cs =>
    have hpos := escapeRune_length_pos isFieldNameStart c
    simp only [UnescapeStructField, EscapeStructField, List.length_append]
    congr 1
    obtain ⟨k, hk⟩ : ∃ k, (escapeRune isFieldNameStart c).length = k + 1 :=
      ⟨(escapeRune isFieldNameStart c).length - 1, by omega⟩
    rw [hk, show k + 1 + (escapeTail cs).length = (k + (escapeTail cs).length) + 1 by omega]
    simp only [unescapeFuel, unescapeOne_escapeRune]
    rw [unescapeFuel_escapeTail cs _ (by omega)]

/-- C13. For every string `n` (a sequence of characters, ASCII or not, `Q` included), the
field-name escape is uniquely invertible: unescaping the escaped name gives `n` back, and so
`EscapeStructField` maps different inputs to different outputs. -/
theorem EscapeStructField_invertible :
    (∀ n : String, UnescapeStructField (EscapeStructField n) = n) ∧
    Function.Injective EscapeStructField := by
  refine ⟨Unescape_Escape, ?_⟩
  intro a b hab
  rw [← Unescape_Escape a, ← Unescape_Escape b, hab]

theorem escapeTail_eq_flatten (cs : List Char) :
    escapeTail cs = (cs.map (escapeRune isFieldNameRest)).flatten := by
  induction cs with
  | nil => rfl
  | cons c cs ih => simp [escapeTail, ih]

theorem escapeRune_eq_self_iff (allowed : Char → Bool) (c : Char) :
    escapeRune allowed c = [c] ↔ (allowed c = true ∧ c ≠ 'Q') := by
  constructor
  · intro h
    rcases escapeRune_length allowed c with ⟨hlit, _⟩ | ⟨_, hlen⟩
    · exact hlit
    · rw [h] at hlen
      simp at hlen
  · exact escapeRune_literal allowed c

theorem escapeTail_length_ge (cs : List Char) : cs.length ≤ (escapeTail cs).length := by
  induction cs with
  | nil => simp [escapeTail]
  | cons c cs ih =>
    have := escapeRune_length_pos isFieldNameRest c
    simp only [escapeTail, List.length_append, List.length_cons]
    omega

theorem escape_cons_eq_self_iff (allowed : Char → Bool) (c : Char) (cs : List Char) :
    escapeRune allowed c ++ escapeTail cs = c :: cs ↔
      (allowed c = true ∧ c ≠ 'Q') ∧ escapeTail cs = cs := by
  constructor
  · intro h
    rcases escapeRune_length allowed c with ⟨hlit, _⟩ | ⟨_, hlen⟩
    · rw [escapeRune_literal allowed c hlit] at h
      simp only [List.singleton_append, List.cons.injEq, true_and] at h
      exact ⟨hlit, h⟩
    · have hl := congrArg List.length h
      have := escapeTail_length_ge cs
      simp only [List.length_append, List.length_cons] at hl
      omega
  · rintro ⟨hlit, htail⟩
    rw [escapeRune_literal allowed c hlit, htail]
    rfl

theorem escapeTail_eq_self_iff (cs : List Char) :
    escapeTail cs = cs ↔ ∀ x ∈ cs, isFieldNameRest x = true ∧ x ≠ 'Q' := by
  induction cs with
  | nil => simp [escapeTail]
  | cons c cs ih =>
    show escapeRune isFieldNameRest c ++ escapeTail cs = c :: cs ↔ _
    rw [escape_cons_eq_self_iff, ih]
    simp

theorem EscapeStructField_eq_self_iff (n : String) :
    EscapeStructField n = n ↔ (n = "" ∨ (IsValidFieldName n = true ∧ 'Q' ∉ n.data)) := by
  obtain ⟨l⟩ := n
  cases l with
  | nil =>
    constructor
    · intro _; exact Or.inl rfl
    · intro _; rfl
  | cons c cs =>
    have hne : ¬ ((⟨c :: cs⟩ : String) = "") := by
      intro h
      have := congrArg String.data h
      simp at this
    have key : EscapeStructField ⟨c :: cs⟩ = ⟨c :: cs⟩ ↔
        escapeRune isFieldNameStart c ++ escapeTail cs = c :: cs := by
      rw [String.ext_iff]
      rfl
    rw [key, escape_cons_eq_self_iff, escapeTail_eq_self_iff]
    simp only [IsValidFieldName, hne, false_or, Bool.and_eq_true, List.all_eq_true,
      List.mem_cons, not_or]
    constructor
    · rintro ⟨⟨h1, h2⟩, h3⟩
      exact ⟨⟨h1, fun x hx => (h3 x hx).1⟩, fun hh => h2 hh.symm,
        fun hx => (h3 'Q' hx).2 rfl⟩
    · rintro ⟨⟨h1, h2⟩, h3, h4⟩
      exact ⟨⟨h1, fun hh => h3 hh.symm⟩, fun x hx => ⟨h2 x hx, fun hh => h4 (hh ▸ hx)⟩⟩

/-- C14. `EscapeStructField` works character by character, in order: the first character
is allowed when it is an ASCII letter, a later one when it is an ASCII letter, digit or
underscore. A character is left unchanged exactly when it is allowed at its position and is
not `Q`; every other character is replaced by `Q` followed by the uppercase hexadecimal code
of its encoded bytes. So a name is unchanged exactly when it is empty or a valid field name
without `Q`, and `"Q"` becomes `"Q51"`, `"_content"` becomes `"Q5Fcontent"`, `"AaZz19_"` stays
unchanged and `"💩"` becomes `"QF09F92A9"`, as do the other cases of `TestEscStructField`. -/
theorem EscapeStructField_characters :
    (∀ (c : Char) (cs : List Char),
      (EscapeStructField ⟨c :: cs⟩).data =
        escapeRune isFieldNameStart c ++ (cs.map (escapeRune isFieldNameRest)).flatten) ∧
    (∀ (allowed : Char → Bool) (c : Char),
      escapeRune allowed c = [c] ↔ (allowed c = true ∧ c ≠ 'Q')) ∧
    (∀ (allowed : Char → Bool) (c : Char), ¬ (allowed c = true ∧ c ≠ 'Q') →
      escapeRune allowed c = 'Q' :: hexBytes (utf8Bytes c.toNat)) ∧
    (∀ n : String,
      EscapeStructField n = n ↔ (n = "" ∨ (IsValidFieldName n = true ∧ 'Q' ∉ n.data))) ∧
    EscapeStructField "Q" = "Q51" ∧
    EscapeStructField "_content" = "Q5Fcontent" ∧
    EscapeStructField "AaZz19_" = "AaZz19_" ∧
    EscapeStructField "💩" = "QF09F92A9" ∧
    EscapeStructField "a" = "a" ∧
    EscapeStructField "AQ1" = "AQ511" ∧
    EscapeStructField "INSPECTIONQ20STATUS" = "INSPECTIONQ5120STATUS" ∧
    EscapeStructField "$" = "Q24" ∧
    EscapeStructField "Few ¢ents Short" = "FewQ20QC2A2entsQ20Short" ∧
    EscapeStructField "https://picasaweb.google.com/data" =
      "httpsQ3AQ2FQ2FpicasawebQ2EgoogleQ2EcomQ2Fdata" := by
  refine ⟨?_, escapeRune_eq_self_iff, escapeRune_escaped, EscapeStructField_eq_self_iff,
    by decide, by decide, by decide, by decide, by decide, by decide, by decide, by decide,
    by decide, by decide⟩
  intro c cs
  simp only [EscapeStructField]
  rw [escapeTail_eq_flatten]

/-! ### The round trip between sql rows and dolt rows -/

theorem Get_loop (ctx : Env) (r : SqlRow) (i : Nat) (tv : TaggedValues) (x : Nat) :
    TaggedValues.Get (SqlRowToDoltRow.loop ctx i r tv) x =
      match (if i ≤ x then r.get? (x - i) else none) with
      | some (some v) => some (ctx.SqlValToNomsVal v)
      | _ => TaggedValues.Get tv x := by
  induction r generalizing i tv with
  | nil => simp [SqlRowToDoltRow.loop]
  | cons a rest ih =>
    by_cases hix : i ≤ x
    · by_cases hxi : x = i
      · subst hxi
        cases a with
        | none =>
          simp only [SqlRowToDoltRow.loop, ih]
          simp
        | some v =>
          simp only [SqlRowToDoltRow.loop, ih]
          simp [TaggedValues.Get_Set]
      · have h1 : i + 1 ≤ x := by omega
        have h2 : x - i = (x - (i + 1)) + 1 := by omega
        cases a with
        | none =>
          simp only [SqlRowToDoltRow.loop, ih, h1, hix, if_true]
          rw [h2, List.get?_cons_succ]
        | some v =>
          simp only [SqlRowToDoltRow.loop, ih, h1, hix, if_true]
          rw [h2, List.get?_cons_succ]
          have hne : ¬ i = x := fun hh => hxi hh.symm
          simp only [TaggedValues.Get_Set, hne, if_false]
    · have h1 : ¬ (i + 1 ≤ x) := by omega
      have hne : ¬ i = x := by omega
      cases a with
      | none => simp only [SqlRowToDoltRow.loop, ih, h1, hix, if_false]
      | some v =>
        simp only [SqlRowToDoltRow.loop, ih, h1, hix, if_false, TaggedValues.Get_Set, hne]

theorem GetColVal_split (tv : TaggedValues) (pk : List Nat) (tag : Nat) :
    Row.GetColVal ⟨tv.filter (fun p => p.1 ∈ pk), tv.filter (fun p => p.1 ∉ pk)⟩ tag =
      TaggedValues.Get tv tag := by
  have h1 := TaggedValues.Get_filter (fun x => decide (x ∈ pk)) tv tag
  have h2 := TaggedValues.Get_filter (fun x => decide (x ∉ pk)) tv tag
  unfold Row.GetColVal
  simp only at h1 h2
  rw [h1, h2]
  by_cases hmem : tag ∈ pk
  · simp only [hmem, decide_True, if_true, not_true_eq_false, decide_False, Bool.false_eq_true,
      if_false]
    cases TaggedValues.Get tv tag <;> rfl
  · simp [hmem]

theorem doltColValToSqlColVal_inverse (ctx : Env) (v : SqlVal)
    (hinv : ctx.nomsValToSqlVal (ctx.SqlValToNomsVal v) = v)
    (hnull : ctx.SqlValToNomsVal v ≠ Value.null) :
    doltColValToSqlColVal ctx (some (ctx.SqlValToNomsVal v)) = some v := by
  unfold doltColValToSqlColVal
  have : IsNull (some (ctx.SqlValToNomsVal v)) = false := by
    cases h : ctx.SqlValToNomsVal v with
    | null => exact absurd h hnull
    | bool b => rfl
    | int n => rfl
    | str s => rfl
  simp [this, hinv]

/-- The round trip is the identity when the tags of the schema are the column positions:
for a sql row with one entry per column, values on which the conversions are mutually
inverse and never the Noms null, and a row construction that succeeds. -/
theorem roundtrip_positional_tags (ctx : Env) (nbf : NomsBinFormat) (sch : Schema) (r : SqlRow)
    (hnew : ∀ tv, ctx.rowNewErr sch tv = none)
    (htags : sch.GetAllCols.Tags = List.range r.length)
    (hinv : ∀ v, some v ∈ r →
      ctx.nomsValToSqlVal (ctx.SqlValToNomsVal v) = v ∧ ctx.SqlValToNomsVal v ≠ Value.null) :
    ∃ dRow, SqlRowToDoltRow ctx nbf r sch = .ok dRow ∧ doltRowToSqlRow ctx dRow sch = .ok r := by
  refine ⟨⟨(SqlRowToDoltRow.loop ctx 0 r []).filter (fun p => p.1 ∈ sch.GetPKCols.Tags),
    (SqlRowToDoltRow.loop ctx 0 r []).filter (fun p => p.1 ∉ sch.GetPKCols.Tags)⟩,
    by simp only [SqlRowToDoltRow, Row.New, hnew], ?_⟩
  simp only [doltRowToSqlRow, htags, GetColVal_split]
  congr 1
  apply List.ext_get?
  intro x
  by_cases hx : x < r.length
  · have hget : r.get? x = some (r.get ⟨x, hx⟩) := List.get?_eq_get hx
    have hrange : (List.range r.length).get? x = some x := by
      rw [List.get?_eq_getElem?, List.getElem?_range hx]
    have hmap : ∀ (f : Nat → Option SqlVal) (l : List Nat), (l.map f).get? x = (l.get? x).map f := by
      intro f l
      simp only [List.get?_eq_getElem?, List.getElem?_map]
    rw [hmap, hrange, hget, Option.map_some', Get_loop]
    simp only [Nat.zero_le, if_true, Nat.sub_zero, hget]
    cases ha : r.get ⟨x, hx⟩ with
    | none => simp [TaggedValues.Get, doltColValToSqlColVal]
    | some v =>
      have hmem : some v ∈ r := ha ▸ List.get_mem r x hx
      simp only
      rw [doltColValToSqlColVal_inverse ctx v (hinv v hmem).1 (hinv v hmem).2]
  · have h1 : r.get? x = none := List.get?_eq_none.mpr (by omega)
    have h2 : (List.range r.length).get? x = none :=
      List.get?_eq_none.mpr (by simp; omega)
    have hmap : ∀ (f : Nat → Option SqlVal) (l : List Nat), (l.map f).get? x = (l.get? x).map f := by
      intro f l
      simp only [List.get?_eq_getElem?, List.getElem?_map]
    rw [hmap, h2, h1]
    rfl

/-- C15 at a schema whose tags are not the column positions. In `swappedSch` the first
column `id` has tag 1 and the second column `x` has tag 0; the sql row `[1, 2]` has one entry
per column, the conversions of the example context are mutually inverse on its values and
`row.New` keeps the tagged values. `SqlRowToDoltRow` files the entries under their indexes
(1 under tag 0, 2 under tag 1), `doltRowToSqlRow` reads the columns by their schema tags, and
the round trip returns `[2, 1]`: the entries come back at each other's position. -/
theorem SqlRowToDoltRow_roundtrip_swapped_tags :
    swappedSch.GetAllCols.Tags = [1, 0] ∧
    swappedSch.GetAllCols.Size = ([some (.int 1), some (.int 2)] : SqlRow).length ∧
    (∀ v : SqlVal, exampleCtx.nomsValToSqlVal (exampleCtx.SqlValToNomsVal v) = v) ∧
    SqlRowToDoltRow exampleCtx Format_7_18 [some (.int 1), some (.int 2)] swappedSch =
      .ok ⟨[(1, .int 2)], [(0, .int 1)]⟩ ∧
    doltRowToSqlRow exampleCtx ⟨[(1, .int 2)], [(0, .int 1)]⟩ swappedSch =
      .ok [some (.int 2), some (.int 1)] ∧
    ([some (.int 2), some (.int 1)] : SqlRow) ≠ [some (.int 1), some (.int 2)] := by
  refine ⟨rfl, rfl, ?_, rfl, rfl, by decide⟩
  intro v
  cases v <;> rfl

/-! ### Insert on a schema whose tags are not the column positions -/

/-- C1 at a schema whose tags are not the column positions. The table `swappedWithOne`
has the primary-key column `id` first, with tag 1, and holds one row, with `id = 1` (a scan
returns `[1, 9]`). The sql row `[1, 2]` has `id = 1`: its primary key is present. `Insert`
takes the 2 given for `x`, filed under tag 1 by `SqlRowToDoltRow`, as the key, does not
find it, returns `(true, nil)` and stores a second row; the table and the root are not what
they were. -/
theorem DoltTable.Insert_present_id_swapped_tags :
    swappedWithOne.sch.GetAllCols.cols.get? 0 = some ⟨"id", 1, true⟩ ∧
    swappedWithOne.table.rowData.MaybeGet ⟨[(1, .int 1)]⟩ = some ⟨[(0, .int 9)]⟩ ∧
    doltTableRowIter.NextN ⟨swappedWithOne.table.rowData, ⟨swappedWithOne.table.rowData, 0⟩⟩
        exampleCtx [swappedWithOne, swappedWithOne] =
      [(some [some (.int 1), some (.int 9)], none), (none, some GoError.EOF)] ∧
    ([some (.int 1), some (.int 2)] : SqlRow).get? 0 = some (some (.int 1)) ∧
    (swappedWithOne.Insert exampleCtx [some (.int 1), some (.int 2)]).1 = (true, none) ∧
    (swappedWithOne.Insert exampleCtx [some (.int 1), some (.int 2)]).2.table.rowData =
      ⟨[(⟨[(1, .int 1)]⟩, ⟨[(0, .int 9)]⟩), (⟨[(1, .int 2)]⟩, ⟨[(0, .int 1)]⟩)]⟩ ∧
    (swappedWithOne.Insert exampleCtx [some (.int 1), some (.int 2)]).2.table ≠
      swappedWithOne.table ∧
    (swappedWithOne.Insert exampleCtx [some (.int 1), some (.int 2)]).2.db.root ≠
      swappedWithOne.db.root := by
  refine ⟨rfl, ?_, ?_, rfl, ?_, ?_, ?_, ?_⟩ <;> decide

/-- C2 at a schema whose tags are not the column positions. The table `swappedWithOne`
holds one row, with `id = 1`. The sql row `[3, 1]` has `id = 3`: its primary key is not
present, and no store operation fails. `Insert` takes the 1 given for `x`, filed under tag 1
by `SqlRowToDoltRow`, as the key, finds the row with `id = 1`, returns `(false, nil)` and
stores nothing: the row data is unchanged and has no entry for `id = 3`. -/
theorem DoltTable.Insert_absent_id_swapped_tags :
    exampleCtx.NoFaults ∧
    swappedWithOne.sch.GetAllCols.cols.get? 0 = some ⟨"id", 1, true⟩ ∧
    ([some (.int 3), some (.int 1)] : SqlRow).get? 0 = some (some (.int 3)) ∧
    swappedWithOne.table.rowData.MaybeGet ⟨[(1, .int 3)]⟩ = none ∧
    (swappedWithOne.Insert exampleCtx [some (.int 3), some (.int 1)]).1 = (false, none) ∧
    (swappedWithOne.Insert exampleCtx [some (.int 3), some (.int 1)]).2 = swappedWithOne ∧
    (swappedWithOne.Insert exampleCtx [some (.int 3), some (.int 1)]).2.table.rowData.MaybeGet
      ⟨[(1, .int 3)]⟩ = none ∧
    (swappedWithOne.Insert exampleCtx [some (.int 3), some (.int 1)]).2.table.rowData.Len =
      swappedWithOne.table.rowData.Len := by
  refine ⟨Env.reliable_NoFaults _ _, rfl, rfl, ?_, ?_, ?_, ?_, ?_⟩ <;> decide

/-- C3 at a schema whose tags are not the column positions. On the empty table
`swappedEmpty`, whose primary-key column `id` comes first and has tag 1, the sql rows
`[1, 2]` and `[1, 7]` have the same primary key, `id = 1`, which is absent at first, and no
store operation fails. `Insert` keys the first row by 2 and the second by 7, the values
given for `x`: both calls return `(true, nil)`, the second call changes the table, and the
row count is 2 after it. -/
theorem DoltTable.Insert_same_id_twice_swapped_tags :
    exampleCtx.NoFaults ∧
    swappedEmpty.sch.GetAllCols.cols.get? 0 = some ⟨"id", 1, true⟩ ∧
    ([some (.int 1), some (.int 2)] : SqlRow).get? 0 =
      ([some (.int 1), some (.int 7)] : SqlRow).get? 0 ∧
    swappedEmpty.table.rowData.Len = 0 ∧
    (swappedEmpty.Insert exampleCtx [some (.int 1), some (.int 2)]).1 = (true, none) ∧
    ((swappedEmpty.Insert exampleCtx [some (.int 1), some (.int 2)]).2.Insert exampleCtx
      [some (.int 1), some (.int 7)]).1 = (true, none) ∧
    ((swappedEmpty.Insert exampleCtx [some (.int 1), some (.int 2)]).2.Insert exampleCtx
      [some (.int 1), some (.int 7)]).2 ≠
      (swappedEmpty.Insert exampleCtx [some (.int 1), some (.int 2)]).2 ∧
    ((swappedEmpty.Insert exampleCtx [some (.int 1), some (.int 2)]).2.Insert exampleCtx
      [some (.int 1), some (.int 7)]).2.table.rowData =
      ⟨[(⟨[(1, .int 2)]⟩, ⟨[(0, .int 1)]⟩), (⟨[(1, .int 7)]⟩, ⟨[(0, .int 1)]⟩)]⟩ ∧
    ((swappedEmpty.Insert exampleCtx [some (.int 1), some (.int 2)]).2.Insert exampleCtx
      [some (.int 1), some (.int 7)]).2.table.rowData.Len = 2 := by
  refine ⟨Env.reliable_NoFaults _ _, rfl, rfl, rfl, ?_, ?_, ?_, ?_, ?_⟩ <;> decide

end Dolt
